import Mathlib

/-!
Verification development for the flydrive storage-driver library.

The drivers under `src/Storage` (LocalStorage, AmazonWebServicesS3Storage,
GoogleCloudStorage, AzureBlockBlobStorage) are shallowly embedded here:

* the error-translation functions (`handleError` / `convertError`) are
  translated line by line from each driver file;
* the cloud object stores are modelled as association lists from key to
  content; the native SDK clients (external collaborators, spec section 6)
  are modelled as functions on that state, each taking an explicit
  `Option NativeErr` fault argument so that access/connectivity failures
  can be injected;
* the local filesystem is modelled as a tree of directories and files and
  Node's posix path functions (`join`, `normalize`, `dirname`) are
  implemented on character lists, following the Node.js source.

Raw pass-through fields (`raw`) of the response shapes are not modelled;
every other field of the response model is.
-/

set_option maxHeartbeats 1000000

/-- A JavaScript error `code` value: the backends use numeric codes (GCS)
and string codes (local fs, GCS key files). -/
inductive ErrCode where
  | num (n : Nat)
  | str (s : String)
deriving DecidableEq

/-- The shape of a native backend error, covering the fields the four
translation functions inspect: `name` (S3), `code` (local fs, GCS),
`statusCode` (S3 exists-check, Azure), `path` (Node fs errors),
`response.parsedHeaders.errorCode` and `request.url` (Azure). A missing
field is `none` (JavaScript `undefined`). -/
structure NativeErr where
  name : String := ""
  code : Option ErrCode := none
  statusCode : Option Nat := none
  path : Option String := none
  errorCode : Option String := none
  url : Option String := none
deriving DecidableEq

/-- Renders an `Option ErrCode` the way JavaScript string coercion renders
the corresponding value (`String(err.code)`, `undefined` included). -/
def jsCodeString : Option ErrCode → String
  | none => "undefined"
  | some (.num n) => toString n
  | some (.str s) => s

/-- The closed error taxonomy of `src/Exceptions` (spec section 7): each
kind carries the original native cause and the path/key involved;
`unknown` additionally carries the original native code string. -/
inductive StorageError where
  | fileNotFound (cause : NativeErr) (path : String)
  | permissionMissing (cause : NativeErr) (path : String)
  | authorizationRequired (cause : NativeErr) (path : String)
  | noSuchBucket (cause : NativeErr) (bucket : String)
  | wrongKeyPath (cause : NativeErr) (path : String)
  | invalidInput (field fn message : String)
  | unknown (cause : NativeErr) (code : String) (path : String)
deriving DecidableEq

/-- `handleError` of `src/Storage/LocalStorage.ts` (lines 26-36): switches
on the string `err.code`, preferring `err.path` over the passed path. -/
def localHandleError (err : NativeErr) (fullPath : String) : StorageError :=
  if err.code = some (.str "E_FILE_NOT_FOUND") ∨ err.code = some (.str "ENOENT") then
    .fileNotFound err (err.path.getD fullPath)
  else if err.code = some (.str "EPERM") then
    .permissionMissing err (err.path.getD fullPath)
  else
    .unknown err (jsCodeString err.code) (err.path.getD fullPath)

/-- `handleError` of the S3 driver (src/unnamed/part_001 lines 23-34):
switches on `err.name`. -/
def s3HandleError (err : NativeErr) (path bucket : String) : StorageError :=
  if err.name = "NoSuchBucket" then .noSuchBucket err bucket
  else if err.name = "NoSuchKey" then .fileNotFound err path
  else if err.name = "AllAccessDisabled" then .permissionMissing err path
  else .unknown err err.name path

/-- `handleError` of `src/Storage/GoogleCloudStorage.ts` (lines 24-37):
switches on `err.code`, which is a number or a string; the default branch
uses `String(err.code)`. -/
def gcsHandleError (err : NativeErr) (path : String) : StorageError :=
  if err.code = some (.num 401) then .authorizationRequired err path
  else if err.code = some (.num 403) then .permissionMissing err path
  else if err.code = some (.num 404) then .fileNotFound err path
  else if err.code = some (.str "ENOENT") then .wrongKeyPath err path
  else .unknown err (jsCodeString err.code) path

/-- The `errorCode` expression of `AzureBlockBlobStorage.convertError`:
`e.response.parsedHeaders.errorCode || e.statusCode` (a string when the
header is present, otherwise the numeric status code, otherwise
`undefined`). -/
def azureErrorCode (e : NativeErr) : Option ErrCode :=
  match e.errorCode with
  | some s => some (.str s)
  | none => e.statusCode.map .num

/-- `convertError` of `src/Storage/AzureBlockBlobStorage.ts` (lines
208-219): the path it reports is `e.request.url || ''`. -/
def azureConvertError (e : NativeErr) : StorageError :=
  let url := e.url.getD ""
  if azureErrorCode e = some (.str "BlobNotFound") then .fileNotFound e url
  else if azureErrorCode e = some (.str "AuthenticationFailed") then .authorizationRequired e url
  else .unknown e (jsCodeString (azureErrorCode e)) url

/-- `ExistsResponse` of `src/types` (`exists` is a Lean keyword, hence the
underscore). -/
structure ExistsResponse where
  exists_ : Bool
deriving DecidableEq

/-- `DeleteResponse` of `src/types`: `wasDeleted : boolean | null`. -/
structure DeleteResponse where
  wasDeleted : Option Bool
deriving DecidableEq

/-- `ContentResponse` of `src/types`, with byte content modelled as a
string. -/
structure ContentResponse where
  content : String
deriving DecidableEq

/-- `SignedUrlOptions` of `src/types`: an optional expiry in seconds. -/
structure SignedUrlOptions where
  expiry : Option Nat := none
deriving DecidableEq

/-- The `put` content union `Buffer | Readable | string`; `other` stands
for any JavaScript value of a different shape, which the type system of
the source cannot rule out at runtime. -/
inductive Content where
  | buffer (data : String)
  | stream (data : String)
  | str (data : String)
  | other
deriving DecidableEq

/-- The bytes carried by a supported content value. -/
def contentStr : Content → Option String
  | .buffer d => some d
  | .stream d => some d
  | .str d => some d
  | .other => none

/-- An object store (bucket / container) as an association list from key
to content. -/
abbrev Store := List (String × String)

/-- Key lookup in a store. -/
def storeFind (st : Store) (k : String) : Option String :=
  match st with
  | [] => none
  | (k', v) :: rest => if k' = k then some v else storeFind rest k

/-- Writes a key, replacing an existing binding. -/
def storePut (st : Store) (k v : String) : Store :=
  match st with
  | [] => [(k, v)]
  | (k', v') :: rest => if k' = k then (k, v) :: rest else (k', v') :: storePut rest k v

/-- Removes a key. -/
def storeDel (st : Store) (k : String) : Store :=
  st.filter (fun p => ¬ p.1 = k)

/-! ### S3 driver (src/unnamed/part_001, `AmazonWebServicesS3Storage`)

Native `aws-sdk` client calls, modelled from the spec (section 6: the
cloud SDK clients are external collaborators exposing head / get / copy /
delete / upload / paginated list). Each takes an `Option NativeErr` fault
for access/connectivity failures; with no fault it follows the backend's
documented semantics on the modelled store. -/

/-- Modelled from the spec: the native `headObject` call; a missing key
yields a 404 error, the outcome `exists` relies on. -/
def s3HeadObject (fault : Option NativeErr) (st : Store) (key : String) :
    Except NativeErr Unit :=
  match fault with
  | some e => .error e
  | none =>
    match storeFind st key with
    | some _ => .ok ()
    | none => .error { name := "NotFound", statusCode := some 404 }

/-- Modelled from the spec: the native `getObject` call; a missing key
yields a `NoSuchKey` error. -/
def s3GetObject (fault : Option NativeErr) (st : Store) (key : String) :
    Except NativeErr String :=
  match fault with
  | some e => .error e
  | none =>
    match storeFind st key with
    | some c => .ok c
    | none => .error { name := "NoSuchKey", statusCode := some 404 }

/-- Modelled from the spec: the native server-side `copyObject` call. -/
def s3CopyObject (fault : Option NativeErr) (st : Store) (src dest : String) :
    Except NativeErr Store :=
  match fault with
  | some e => .error e
  | none =>
    match storeFind st src with
    | some c => .ok (storePut st dest c)
    | none => .error { name := "NoSuchKey", statusCode := some 404 }

/-- Modelled from the spec: the native `deleteObject` call, which succeeds
unconditionally (S3 does not report whether anything was removed). -/
def s3DeleteObject (fault : Option NativeErr) (st : Store) (key : String) :
    Except NativeErr Store :=
  match fault with
  | some e => .error e
  | none => .ok (storeDel st key)

/-- Modelled from the spec: the native `upload` call. The S3 driver passes
`content` through unchecked; on a body of an unsupported shape the SDK
itself rejects with its own error, which is not one of the driver's
translated codes. -/
def s3Upload (fault : Option NativeErr) (st : Store) (key : String) (content : Content) :
    Except NativeErr Store :=
  match fault with
  | some e => .error e
  | none =>
    match contentStr content with
    | some c => .ok (storePut st key c)
    | none => .error { name := "InvalidParameterType" }

/-- `AmazonWebServicesS3Storage.exists` (part_001 lines 98-111): a caught
error with `statusCode === 404` becomes `exists: false`; anything else is
translated and thrown. -/
def s3Exists (fault : Option NativeErr) (bucket : String) (st : Store) (location : String) :
    Except StorageError ExistsResponse :=
  match s3HeadObject fault st location with
  | .ok _ => .ok { exists_ := true }
  | .error e =>
    if e.statusCode = some 404 then .ok { exists_ := false }
    else .error (s3HandleError e location bucket)

/-- `AmazonWebServicesS3Storage.getBuffer` (part_001 lines 116-126). -/
def s3GetBuffer (fault : Option NativeErr) (bucket : String) (st : Store) (location : String) :
    Except StorageError ContentResponse :=
  match s3GetObject fault st location with
  | .ok c => .ok { content := c }
  | .error e => .error (s3HandleError e location bucket)

/-- `AmazonWebServicesS3Storage.copy` (part_001 lines 61-74); errors are
translated with the source path. -/
def s3Copy (fault : Option NativeErr) (bucket : String) (st : Store) (src dest : String) :
    Store × Except StorageError Unit :=
  match s3CopyObject fault st src dest with
  | .ok st' => (st', .ok ())
  | .error e => (st, .error (s3HandleError e src bucket))

/-- `AmazonWebServicesS3Storage.delete` (part_001 lines 79-93):
`wasDeleted` is always `null` ("amazon does not inform the client if
anything was deleted"); any caught error is translated and thrown. -/
def s3Delete (fault : Option NativeErr) (bucket : String) (st : Store) (location : String) :
    Store × Except StorageError DeleteResponse :=
  match s3DeleteObject fault st location with
  | .ok st' => (st', .ok { wasDeleted := none })
  | .error e => (st, .error (s3HandleError e location bucket))

/-- `AmazonWebServicesS3Storage.move` (part_001 lines 193-197): `copy`,
then `delete`, then `{ raw: undefined }`. -/
def s3Move (copyFault deleteFault : Option NativeErr) (bucket : String) (st : Store)
    (src dest : String) : Store × Except StorageError Unit :=
  match s3Copy copyFault bucket st src dest with
  | (st1, .ok _) =>
    match s3Delete deleteFault bucket st1 src with
    | (st2, .ok _) => (st2, .ok ())
    | (st2, .error e) => (st2, .error e)
  | (st1, .error e) => (st1, .error e)

/-- `AmazonWebServicesS3Storage.put` (part_001 lines 203-211): the content
is passed to the native `upload` with no shape check; any error is
translated. -/
def s3Put (fault : Option NativeErr) (bucket : String) (st : Store) (location : String)
    (content : Content) : Store × Except StorageError Unit :=
  match s3Upload fault st location content with
  | .ok st' => (st', .ok ())
  | .error e => (st, .error (s3HandleError e location bucket))

/-- `getSignedUrl` expiry of the S3 driver (part_001 line 132):
`const { expiry = 900 } = options`, with `options` defaulting to `{}`
when the argument is omitted (`none`). -/
def s3SignedExpiry (options : Option SignedUrlOptions) : Nat :=
  ((options.getD {}).expiry).getD 900

/-- `getSignedUrl` expiry of the GCS driver
(src/src/Storage/GoogleCloudStorage.ts line 119): same destructuring
default of 900. -/
def gcsSignedExpiry (options : Option SignedUrlOptions) : Nat :=
  ((options.getD {}).expiry).getD 900

/-- `getSignedUrl` expiry of the Azure driver
(src/src/Storage/AzureBlockBlobStorage.ts line 134):
`options && options.expiry || 3600`; a falsy expiry (absent or 0) falls
back to 3600. -/
def azureSignedExpiry (options : Option SignedUrlOptions) : Nat :=
  match options with
  | none => 3600
  | some o =>
    match o.expiry with
    | none => 3600
    | some e => if e = 0 then 3600 else e

/-! ### GCS driver (src/src/Storage/GoogleCloudStorage.ts) -/

/-- Modelled from the spec: the native `File#exists` call, which resolves
`[false]` for a missing object and rejects only on failures. -/
def gcsFileExists (fault : Option NativeErr) (st : Store) (loc : String) :
    Except NativeErr Bool :=
  match fault with
  | some e => .error e
  | none => .ok (storeFind st loc).isSome

/-- Modelled from the spec: the native `File#download` call; a missing
object rejects with a 404 error. -/
def gcsFileDownload (fault : Option NativeErr) (st : Store) (loc : String) :
    Except NativeErr String :=
  match fault with
  | some e => .error e
  | none =>
    match storeFind st loc with
    | some c => .ok c
    | none => .error { code := some (.num 404), statusCode := some 404 }

/-- Modelled from the spec: the native `File#delete` call; a missing
object rejects with a 404 error. -/
def gcsFileDelete (fault : Option NativeErr) (st : Store) (loc : String) :
    Except NativeErr Store :=
  match fault with
  | some e => .error e
  | none =>
    match storeFind st loc with
    | some _ => .ok (storeDel st loc)
    | none => .error { code := some (.num 404), statusCode := some 404 }

/-- Modelled from the spec: the native `File#move` call (a single SDK
call; internally the SDK copies to the destination and deletes the
source); a missing source rejects with a 404 error. -/
def gcsFileMove (fault : Option NativeErr) (st : Store) (src dest : String) :
    Except NativeErr Store :=
  match fault with
  | some e => .error e
  | none =>
    match storeFind st src with
    | some c => .ok (storeDel (storePut st dest c) src)
    | none => .error { code := some (.num 404), statusCode := some 404 }

/-- Modelled from the spec: the native `File#copy` call. -/
def gcsFileCopy (fault : Option NativeErr) (st : Store) (src dest : String) :
    Except NativeErr Store :=
  match fault with
  | some e => .error e
  | none =>
    match storeFind st src with
    | some c => .ok (storePut st dest c)
    | none => .error { code := some (.num 404), statusCode := some 404 }

/-- Modelled from the spec: the native write primitives used by
`GoogleCloudStorage.put` (`createWriteStream` piping and `File#save`). -/
def gcsFileWrite (fault : Option NativeErr) (st : Store) (loc : String) (c : String) :
    Except NativeErr Store :=
  match fault with
  | some e => .error e
  | none => .ok (storePut st loc c)

/-- `GoogleCloudStorage.exists` (lines 94-101). -/
def gcsExists (fault : Option NativeErr) (st : Store) (location : String) :
    Except StorageError ExistsResponse :=
  match gcsFileExists fault st location with
  | .ok b => .ok { exists_ := b }
  | .error e => .error (gcsHandleError e location)

/-- `GoogleCloudStorage.getBuffer` (lines 106-113). -/
def gcsGetBuffer (fault : Option NativeErr) (st : Store) (location : String) :
    Except StorageError ContentResponse :=
  match gcsFileDownload fault st location with
  | .ok c => .ok { content := c }
  | .error e => .error (gcsHandleError e location)

/-- `GoogleCloudStorage.delete` (lines 72-89): a caught error translating
to `FileNotFound` downgrades to `wasDeleted: false`; any other error is
thrown. -/
def gcsDelete (fault : Option NativeErr) (st : Store) (location : String) :
    Store × Except StorageError DeleteResponse :=
  match gcsFileDelete fault st location with
  | .ok st' => (st', .ok { wasDeleted := some true })
  | .error e =>
    match gcsHandleError e location with
    | .fileNotFound _ _ => (st, .ok { wasDeleted := some false })
    | e' => (st, .error e')

/-- `GoogleCloudStorage.move` (lines 166-176): a single native
`srcFile.move(destFile)` call, errors translated with the source path. -/
def gcsMove (fault : Option NativeErr) (st : Store) (src dest : String) :
    Store × Except StorageError Unit :=
  match gcsFileMove fault st src dest with
  | .ok st' => (st', .ok ())
  | .error e => (st, .error (gcsHandleError e src))

/-- `GoogleCloudStorage.copy` (lines 57-67). -/
def gcsCopy (fault : Option NativeErr) (st : Store) (src dest : String) :
    Store × Except StorageError Unit :=
  match gcsFileCopy fault st src dest with
  | .ok st' => (st', .ok ())
  | .error e => (st, .error (gcsHandleError e src))

/-- `GoogleCloudStorage.put` (lines 182-209): streams, buffers and strings
are written; any other shape leaves `result` unset and raises
`InvalidInput` locally (with the copy-pasted operation name
`AzureBlobStorage#put` of the source). -/
def gcsPut (fault : Option NativeErr) (st : Store) (location : String) (content : Content) :
    Store × Except StorageError Unit :=
  match content with
  | .stream d =>
    (match gcsFileWrite fault st location d with
     | .ok st' => (st', .ok ())
     | .error e => (st, .error (gcsHandleError e location)))
  | .buffer d =>
    (match gcsFileWrite fault st location d with
     | .ok st' => (st', .ok ())
     | .error e => (st, .error (gcsHandleError e location)))
  | .str d =>
    (match gcsFileWrite fault st location d with
     | .ok st' => (st', .ok ())
     | .error e => (st, .error (gcsHandleError e location)))
  | .other =>
    (st, .error (.invalidInput "content" "AzureBlobStorage#put"
      "only Buffers, ReadableStreams and strings are supported"))

/-! ### Azure driver (src/src/Storage/AzureBlockBlobStorage.ts) -/

/-- The blob URL of a location: `client.url`, the container URL followed
by the blob name. -/
def azureBlobUrl (containerUrl loc : String) : String :=
  containerUrl ++ "/" ++ loc

/-- Modelled from the spec: the native `BlockBlobClient#exists` call. -/
def azureBlobExists (fault : Option NativeErr) (st : Store) (_loc : String) :
    Except NativeErr Bool :=
  match fault with
  | some e => .error e
  | none => .ok (storeFind st _loc).isSome

/-- Modelled from the spec: the native `BlockBlobClient#download` call; a
missing blob rejects with a `BlobNotFound` error whose request URL is the
blob URL. -/
def azureBlobDownload (fault : Option NativeErr) (containerUrl : String) (st : Store)
    (loc : String) : Except NativeErr String :=
  match fault with
  | some e => .error e
  | none =>
    match storeFind st loc with
    | some c => .ok c
    | none =>
      .error { errorCode := some "BlobNotFound", statusCode := some 404,
               url := some (azureBlobUrl containerUrl loc) }

/-- Modelled from the spec: the native `BlockBlobClient#delete` call; a
missing blob rejects with a `BlobNotFound` error. -/
def azureBlobDelete (fault : Option NativeErr) (containerUrl : String) (st : Store)
    (loc : String) : Except NativeErr Store :=
  match fault with
  | some e => .error e
  | none =>
    match storeFind st loc with
    | some _ => .ok (storeDel st loc)
    | none =>
      .error { errorCode := some "BlobNotFound", statusCode := some 404,
               url := some (azureBlobUrl containerUrl loc) }

/-- Modelled from the spec: the native `syncCopyFromURL` call on the
destination blob client, reading the (signed) source URL; a missing
source rejects. -/
def azureBlobCopyFromUrl (fault : Option NativeErr) (containerUrl : String) (st : Store)
    (src dest : String) : Except NativeErr Store :=
  match fault with
  | some e => .error e
  | none =>
    match storeFind st src with
    | some c => .ok (storePut st dest c)
    | none =>
      .error { errorCode := some "CannotVerifyCopySource", statusCode := some 404,
               url := some (azureBlobUrl containerUrl dest) }

/-- Modelled from the spec: the native `upload` / `uploadStream` calls. -/
def azureBlobUpload (fault : Option NativeErr) (st : Store) (loc : String) (c : String) :
    Except NativeErr Store :=
  match fault with
  | some e => .error e
  | none => .ok (storePut st loc c)

/-- `AzureBlockBlobStorage.exists` (lines 84-96). -/
def azureExists (fault : Option NativeErr) (st : Store) (location : String) :
    Except StorageError ExistsResponse :=
  match azureBlobExists fault st location with
  | .ok b => .ok { exists_ := b }
  | .error e => .error (azureConvertError e)

/-- `AzureBlockBlobStorage.getBuffer` (lines 98-113). -/
def azureGetBuffer (fault : Option NativeErr) (containerUrl : String) (st : Store)
    (location : String) : Except StorageError ContentResponse :=
  match azureBlobDownload fault containerUrl st location with
  | .ok c => .ok { content := c }
  | .error e => .error (azureConvertError e)

/-- `AzureBlockBlobStorage.delete` (lines 63-82): a caught error
converting to `FileNotFound` downgrades to `wasDeleted: false`; any other
error is thrown. -/
def azureDelete (fault : Option NativeErr) (containerUrl : String) (st : Store)
    (location : String) : Store × Except StorageError DeleteResponse :=
  match azureBlobDelete fault containerUrl st location with
  | .ok st' => (st', .ok { wasDeleted := some true })
  | .error e =>
    match azureConvertError e with
    | .fileNotFound _ _ => (st, .ok { wasDeleted := some false })
    | e' => (st, .error e')

/-- `AzureBlockBlobStorage.copy` (lines 48-61): server-side
`syncCopyFromURL` of the signed source URL; errors are converted. -/
def azureCopy (fault : Option NativeErr) (containerUrl : String) (st : Store)
    (src dest : String) : Store × Except StorageError Unit :=
  match azureBlobCopyFromUrl fault containerUrl st src dest with
  | .ok st' => (st', .ok ())
  | .error e => (st, .error (azureConvertError e))

/-- `AzureBlockBlobStorage.move` (lines 157-171): `this.copy(src, dest)`
followed by a direct native `srcBlobClient.delete()`; a native delete
error is converted and thrown (leaving both blobs in place). An error of
the inner `copy` is rethrown by the same catch; the source re-applies
`convertError` to that already-converted error (degrading its kind); no
claim depends on the copy-failure kind, so it is propagated as is here. -/
def azureMove (copyFault deleteFault : Option NativeErr) (containerUrl : String) (st : Store)
    (src dest : String) : Store × Except StorageError Unit :=
  match azureCopy copyFault containerUrl st src dest with
  | (st1, .ok _) =>
    match azureBlobDelete deleteFault containerUrl st1 src with
    | .ok st2 => (st2, .ok ())
    | .error e => (st1, .error (azureConvertError e))
  | (st1, .error e) => (st1, .error e)

/-- `AzureBlockBlobStorage.put` (lines 173-202): buffers and strings are
uploaded, streams are piped through `uploadStream`; any other shape
leaves `result` unset and raises `InvalidInput` locally. -/
def azurePut (fault : Option NativeErr) (st : Store) (location : String) (content : Content) :
    Store × Except StorageError Unit :=
  match content with
  | .buffer d =>
    (match azureBlobUpload fault st location d with
     | .ok st' => (st', .ok ())
     | .error e => (st, .error (azureConvertError e)))
  | .str d =>
    (match azureBlobUpload fault st location d with
     | .ok st' => (st', .ok ())
     | .error e => (st, .error (azureConvertError e)))
  | .stream d =>
    (match azureBlobUpload fault st location d with
     | .ok st' => (st', .ok ())
     | .error e => (st, .error (azureConvertError e)))
  | .other =>
    (st, .error (.invalidInput "content" "AzureBlobStorage#put"
      "only Buffers, ReadableStreams and strings are supported"))

/-! ### Paginated listing (S3 `Marker` loop, GCS `pageToken` loop) -/

/-- Boolean list-prefix test (the embedding of JavaScript
`x.substr(0, p.length) === p` / key-prefix filtering). -/
def preB : List Char → List Char → Bool
  | [], _ => true
  | _ :: _, [] => false
  | a :: as, b :: bs => a = b && preB as bs

/-- The keys of a store sharing a given leading string, in store order
(the backend's native enumeration order). -/
def keysMatching (st : Store) (pfx : String) : List String :=
  (st.map Prod.fst).filter (fun k => preB pfx.data k.data)

/-- A pagination marker test: with no marker every key qualifies, with a
marker only keys strictly beyond it do (S3 `Marker` semantics). -/
def afterMarker (marker : Option String) (k : String) : Bool :=
  match marker with
  | none => true
  | some m => decide (m < k)

/-- Modelled from the spec: one native list round trip (S3 `listObjects`
with `Prefix`/`Marker`/`MaxKeys`, GCS `getFiles` with a page token): at
most `maxKeys` qualifying keys and, while further keys remain, a
continuation marker (the last key of the page). -/
def listPage (st : Store) (pfx : String) (marker : Option String) (maxKeys : Nat) :
    List String × Option String :=
  let after := (keysMatching st pfx).filter (afterMarker marker)
  (after.take maxKeys,
   if maxKeys < after.length then (after.take maxKeys).getLast? else none)

/-- If `q` implies `p` and some element of `l` satisfies `p` but not `q`,
filtering by `q` gives a strictly shorter list than filtering by `p`. -/
theorem filter_length_lt_of_mem {α : Type} {l : List α} {p q : α → Bool}
    (himp : ∀ a, q a = true → p a = true) {x : α} (hx : x ∈ l)
    (hpx : p x = true) (hqx : q x = false) :
    (l.filter q).length < (l.filter p).length := by
  have hle : ∀ (m : List α), (m.filter q).length ≤ (m.filter p).length := by
    intro m
    induction m with
    | nil => simp
    | cons a m ih =>
      by_cases hq : q a = true
      · have hp := himp a hq
        simp only [List.filter_cons, hq, hp, if_true, List.length_cons]
        omega
      · have hq' : q a = false := by simpa using hq
        by_cases hp : p a = true
        · simp only [List.filter_cons, hq', hp, if_true, if_false, Bool.false_eq_true,
            List.length_cons]
          omega
        · have hp' : p a = false := by simpa using hp
          simp only [List.filter_cons, hq', hp', if_false, Bool.false_eq_true]
          exact ih
  induction l with
  | nil => cases hx
  | cons a l ih =>
    rcases List.mem_cons.mp hx with h | h
    · subst h
      simp only [List.filter_cons, hpx, hqx, if_true, if_false, Bool.false_eq_true,
        List.length_cons]
      exact Nat.lt_succ_of_le (hle l)
    · by_cases hq : q a = true
      · have hp := himp a hq
        simp only [List.filter_cons, hq, hp, if_true, List.length_cons]
        exact Nat.succ_lt_succ (ih h)
      · have hq' : q a = false := by simpa using hq
        by_cases hp : p a = true
        · simp only [List.filter_cons, hq', hp, if_true, if_false, Bool.false_eq_true,
            List.length_cons]
          exact Nat.lt_succ_of_lt (ih h)
        · have hp' : p a = false := by simpa using hp
          simp only [List.filter_cons, hq', hp', if_false, Bool.false_eq_true]
          exact ih h

/-- The marker loop shared by the paginated drivers
(`AmazonWebServicesS3Storage.flatList`, part_001 lines 213-232:
`do { listObjects(...MaxKeys 1000); marker = NextMarker } while (marker)`;
`GoogleCloudStorage.flatList`, lines 211-228, the same shape over
`getFiles` page tokens): request a page, yield its keys, continue while a
continuation marker comes back. -/
def pagedLoop (st : Store) (pfx : String) (pageSize : Nat) (marker : Option String) :
    List String :=
  let res := listPage st pfx marker pageSize
  if h : res.2.isSome then
    res.1 ++ pagedLoop st pfx pageSize (some (res.2.get h))
  else
    res.1
termination_by ((keysMatching st pfx).filter (afterMarker marker)).length
decreasing_by
  simp only [listPage, Option.isSome_iff_exists] at h
  rcases h with ⟨m, hm⟩
  have hm2 : (if pageSize < ((keysMatching st pfx).filter (afterMarker marker)).length
      then (((keysMatching st pfx).filter (afterMarker marker)).take pageSize).getLast?
      else none) = some m := hm
  have hget : res.2.get h = m := Option.some_inj.mp ((Option.some_get h).trans hm)
  rw [hget]
  split at hm2
  · rename_i hlen
    have hmem : m ∈ ((keysMatching st pfx).filter (afterMarker marker)).take pageSize := by
      rcases List.mem_getLast?_eq_getLast (x := m) (by rw [Option.mem_def, hm2]) with ⟨hne, hEq⟩
      rw [hEq]
      exact List.getLast_mem hne
    have hmem' : m ∈ (keysMatching st pfx).filter (afterMarker marker) :=
      List.take_subset _ _ hmem
    have hmk : m ∈ keysMatching st pfx := (List.mem_filter.mp hmem').1
    have hafter : afterMarker marker m = true := (List.mem_filter.mp hmem').2
    apply filter_length_lt_of_mem (x := m) _ hmk hafter
    · simp only [afterMarker, decide_eq_false_iff_not]
      exact lt_irrefl m
    · intro a ha
      simp only [afterMarker, decide_eq_true_eq] at ha
      cases marker with
      | none => rfl
      | some m0 =>
        simp only [afterMarker, decide_eq_true_eq] at hafter ⊢
        exact lt_trans hafter ha
  · exact absurd hm2 (by simp)

/-- `AmazonWebServicesS3Storage.flatList` (part_001 lines 213-232): the
`Marker` loop with `MaxKeys: 1000`, starting with no marker. -/
def s3FlatList (st : Store) (pfx : String) : List String :=
  pagedLoop st pfx 1000 none

/-- `GoogleCloudStorage.flatList` (lines 211-228): the page-token loop
(`autoPaginate: false`); the page size is the backend's own cap, left
abstract. -/
def gcsFlatList (pageSize : Nat) (st : Store) (pfx : String) : List String :=
  pagedLoop st pfx pageSize none

/-- `AzureBlockBlobStorage.flatList` (lines 221-227): iterates the SDK's
`listBlobsFlat({prefix})` async iterable, whose pagination is internal to
the SDK (modelled from the spec as yielding every matching key), and
yields each blob name. -/
def azureFlatList (st : Store) (pfx : String) : List String :=
  keysMatching st pfx

/-- In a strictly sorted list, no element exceeds the last one. -/
theorem pairwise_lt_getLast_ge : ∀ (l : List String), List.Pairwise (· < ·) l →
    ∀ (m : String), l.getLast? = some m → ∀ x ∈ l, ¬ m < x := by
  intro l
  induction l with
  | nil => intro _ m h; cases h
  | cons a l ih =>
    intro hp m hlast x hx
    cases l with
    | nil =>
      have h1 : a = m := by simpa using hlast
      have h2 : x = a := by simpa using hx
      rw [← h1, h2]
      exact lt_irrefl a
    | cons b l' =>
      rw [List.getLast?_cons_cons] at hlast
      have hmem : m ∈ b :: l' := by
        rcases List.mem_getLast?_eq_getLast (x := m) (by rw [Option.mem_def, hlast]) with
          ⟨hne, hEq⟩
        rw [hEq]
        exact List.getLast_mem hne
      rcases List.mem_cons.mp hx with h | h
      · subst h
        have hax : x < m := (List.pairwise_cons.mp hp).1 m hmem
        exact fun hmx => lt_asymm hax hmx
      · exact ih (List.pairwise_cons.mp hp).2 m hlast x h

/-- In a strictly sorted list, filtering by "beyond the last element of
the first `n`" is exactly dropping the first `n`. -/
theorem filter_lt_eq_drop {l : List String} (hp : List.Pairwise (· < ·) l) (n : Nat)
    {m : String} (hm : (l.take n).getLast? = some m) :
    l.filter (fun k => decide (m < k)) = l.drop n := by
  have hsplit : l.take n ++ l.drop n = l := List.take_append_drop n l
  have hp' : List.Pairwise (· < ·) (l.take n ++ l.drop n) := by rw [hsplit]; exact hp
  have hmm : m ∈ l.take n := by
    rcases List.mem_getLast?_eq_getLast (x := m) (by rw [Option.mem_def, hm]) with ⟨hne, hEq⟩
    rw [hEq]
    exact List.getLast_mem hne
  conv_lhs => rw [← hsplit]
  rw [List.filter_append]
  have htake : (l.take n).filter (fun k => decide (m < k)) = [] := by
    rw [List.filter_eq_nil_iff]
    intro x hx
    simp only [decide_eq_true_eq]
    exact pairwise_lt_getLast_ge _ (List.Pairwise.sublist (List.take_sublist n l) hp) m hm x hx
  have hdrop : (l.drop n).filter (fun k => decide (m < k)) = l.drop n := by
    rw [List.filter_eq_self]
    intro x hx
    simp only [decide_eq_true_eq]
    exact (List.pairwise_append.mp hp').2.2 m hmm x hx
  rw [htake, hdrop, List.nil_append]

/-- One stopping step of the marker loop: when no further keys remain the
backend returns no continuation marker and the loop ends with the final
page. -/
theorem pagedLoop_stop {st : Store} {pfx : String} {pageSize : Nat} {marker : Option String}
    (hc : ¬ pageSize < ((keysMatching st pfx).filter (afterMarker marker)).length) :
    pagedLoop st pfx pageSize marker
      = ((keysMatching st pfx).filter (afterMarker marker)).take pageSize := by
  rw [pagedLoop]
  simp [listPage, hc]

/-- One continuing step of the marker loop. -/
theorem pagedLoop_step {st : Store} {pfx : String} {pageSize : Nat} {marker : Option String}
    {m : String}
    (hc : pageSize < ((keysMatching st pfx).filter (afterMarker marker)).length)
    (hm : (((keysMatching st pfx).filter (afterMarker marker)).take pageSize).getLast?
      = some m) :
    pagedLoop st pfx pageSize marker
      = ((keysMatching st pfx).filter (afterMarker marker)).take pageSize
        ++ pagedLoop st pfx pageSize (some m) := by
  rw [pagedLoop]
  simp [listPage, hc, hm]

/-- The marker loop enumerates every qualifying key: with a positive page
size and the backend's sorted enumeration order, the loop started at a
marker returns exactly the keys beyond that marker. -/
theorem pagedLoop_eq (st : Store) (pfx : String) (pageSize : Nat) (hps : 0 < pageSize)
    (hsorted : List.Pairwise (· < ·) (keysMatching st pfx)) :
    ∀ (n : Nat) (marker : Option String),
      ((keysMatching st pfx).filter (afterMarker marker)).length ≤ n →
      pagedLoop st pfx pageSize marker = (keysMatching st pfx).filter (afterMarker marker) := by
  intro n
  induction n using Nat.strong_induction_on with
  | _ n ih =>
    intro marker hlen
    by_cases hc : pageSize < ((keysMatching st pfx).filter (afterMarker marker)).length
    · have hsorted' : List.Pairwise (· < ·)
          ((keysMatching st pfx).filter (afterMarker marker)) :=
        List.Pairwise.filter _ hsorted
      have htake_ne : ((keysMatching st pfx).filter (afterMarker marker)).take pageSize ≠ [] := by
        apply List.ne_nil_of_length_pos
        rw [List.length_take]
        exact lt_min hps (lt_trans hps hc)
      obtain ⟨m, hm⟩ : ∃ m,
          (((keysMatching st pfx).filter (afterMarker marker)).take pageSize).getLast?
            = some m :=
        ⟨_, List.getLast?_eq_getLast_of_ne_nil htake_ne⟩
      have hmm : m ∈ ((keysMatching st pfx).filter (afterMarker marker)).take pageSize := by
        rcases List.mem_getLast?_eq_getLast (x := m) (by rw [Option.mem_def, hm]) with
          ⟨hne, hEq⟩
        rw [hEq]
        exact List.getLast_mem hne
      have hmm' : m ∈ (keysMatching st pfx).filter (afterMarker marker) :=
        List.take_subset _ _ hmm
      have hmk : m ∈ keysMatching st pfx := (List.mem_filter.mp hmm').1
      have hafter : afterMarker marker m = true := (List.mem_filter.mp hmm').2
      have hstrict : ((keysMatching st pfx).filter (afterMarker (some m))).length
          < ((keysMatching st pfx).filter (afterMarker marker)).length := by
        apply filter_length_lt_of_mem (x := m) _ hmk hafter
        · simp only [afterMarker, decide_eq_false_iff_not]
          exact lt_irrefl m
        · intro a ha
          simp only [afterMarker, decide_eq_true_eq] at ha
          cases marker with
          | none => rfl
          | some m0 =>
            simp only [afterMarker, decide_eq_true_eq] at hafter ⊢
            exact lt_trans hafter ha
      have hle' : ((keysMatching st pfx).filter (afterMarker (some m))).length ≤ n - 1 := by
        omega
      have hnpos : 0 < n := by omega
      have hrec := ih (n - 1) (by omega) (some m) hle'
      rw [pagedLoop_step hc hm, hrec]
      have hfil : (keysMatching st pfx).filter (afterMarker (some m))
          = ((keysMatching st pfx).filter (afterMarker marker)).filter
              (fun k => decide (m < k)) := by
        rw [List.filter_filter]
        apply List.filter_congr
        intro x hx
        by_cases hmx : m < x
        · have hpx : afterMarker marker x = true := by
            cases marker with
            | none => rfl
            | some m0 =>
              simp only [afterMarker, decide_eq_true_eq] at hafter ⊢
              exact lt_trans hafter hmx
          rw [hpx]
          simp [afterMarker, hmx]
        · simp [afterMarker, hmx]
      rw [hfil, filter_lt_eq_drop hsorted' pageSize hm, List.take_append_drop]
    · rw [pagedLoop_stop hc]
      exact List.take_of_length_le (by omega)

/-! ### Node.js posix path functions (used by `LocalStorage`)

`LocalStorage` resolves every location through
`join(this.$root, join('/', relativePath))` and walks directories with
`join`, `dirname` and `relative`. These are implemented below on
character lists following the algorithms of Node's `path.posix`. -/

/-- Splits a character list on `/` (so `"a/b"` gives `[a, b]`, with empty
pieces for leading, trailing and doubled separators). -/
def splitOnSlash : List Char → List (List Char)
  | [] => [[]]
  | c :: cs =>
    if c = '/' then [] :: splitOnSlash cs
    else
      match splitOnSlash cs with
      | [] => [[c]]
      | s :: ss => (c :: s) :: ss

/-- Joins segments with `/` separators. -/
def interSlash : List (List Char) → List Char
  | [] => []
  | [s] => s
  | s :: rest => s ++ '/' :: interSlash rest

/-- One step of Node's `normalizeString`, with the accumulated segments
kept in reverse order: empty and `.` segments are skipped, `..` pops the
last real segment (or, above the root of a relative path, is kept when
`allowAbove`), anything else is pushed. -/
def normStepR (allowAbove : Bool) (acc : List (List Char)) (seg : List Char) :
    List (List Char) :=
  if seg = [] ∨ seg = ['.'] then acc
  else if seg = ['.', '.'] then
    match acc with
    | l :: rest => if l = ['.', '.'] then (if allowAbove then seg :: acc else acc) else rest
    | [] => if allowAbove then [seg] else []
  else seg :: acc

/-- Node's `normalizeString`: resolves `.` and `..` segments; `..` never
escapes the root of an absolute path (`allowAbove = false`). -/
def normSegs (allowAbove : Bool) (segs : List (List Char)) : List (List Char) :=
  (segs.foldl (normStepR allowAbove) []).reverse

/-- Node's `path.posix.normalize` on character lists. -/
def normalizeChars (p : List Char) : List Char :=
  match p with
  | [] => ['.']
  | c :: _ =>
    let isAbs := c = '/'
    let trailing := p.getLast? = some '/'
    let body := interSlash (normSegs (!isAbs) (splitOnSlash p))
    if body = [] then
      if isAbs then ['/']
      else if trailing then ['.', '/'] else ['.']
    else
      (if isAbs then '/' :: body else body) ++ (if trailing then ['/'] else [])

/-- Node's `path.posix.join` of two parts: empty parts are dropped, the
rest are joined with `/` and normalized; with nothing left the result is
`"."`. -/
def joinTwo (a b : String) : String :=
  match (if a = "" then [] else [a.data]) ++ (if b = "" then [] else [b.data]) with
  | [] => "."
  | parts => ⟨normalizeChars (interSlash parts)⟩

/-- Node's `path.posix.dirname` on character lists: trailing separators
and the last component are stripped. -/
def dirnameChars (p : List Char) : List Char :=
  match p with
  | [] => ['.']
  | c0 :: _ =>
    let hasRoot := c0 = '/'
    let r1 := p.reverse.dropWhile (· = '/')
    let r2 := r1.dropWhile (· ≠ '/')
    let res := (r2.drop 1).reverse
    if r2 = [] then (if hasRoot then ['/'] else ['.'])
    else if res = [] then (if hasRoot then ['/'] else ['.'])
    else if hasRoot ∧ res = ['/'] then ['/', '/']
    else res

/-- `path.dirname` on strings. -/
def dirnameStr (s : String) : String :=
  ⟨dirnameChars s.data⟩

/-- `path.relative(root, q)` restricted to the case `q` lies strictly
under `root`, the only case `LocalStorage.flatListAbsolute` exercises
(every yielded `fileName` extends `this.$root + '/'`): the root and the
separator are stripped. -/
def relativeUnder (root q : String) : String :=
  if preB (root.data ++ ['/']) q.data then ⟨q.data.drop (root.data.length + 1)⟩ else q

/-- `LocalStorage._fullPath` (LocalStorage.ts lines 53-55):
`join(this.$root, join('/', relativePath))`. -/
def fullPath (root rel : String) : String :=
  joinTwo root (joinTwo "/" rel)

example : fullPath "/storage" "../../../dummy_file" = "/storage/dummy_file" := by decide
example : fullPath "/storage" "fake_dir/../dummy_file" = "/storage/dummy_file" := by decide
example : fullPath "/storage" "" = "/storage/" := by decide
example : fullPath "/storage" "/dummy_file" = "/storage/dummy_file" := by decide
example : fullPath "/storage" "a/b/" = "/storage/a/b/" := by decide
example : dirnameStr "/storage/a/b" = "/storage/a" := by decide
example : dirnameStr "/storage/a" = "/storage" := by decide
example : dirnameStr "/a" = "/" := by decide
example : joinTwo "/storage/a/" "b" = "/storage/a/b" := by decide

/-- A clean path segment: nonempty, not a dot link, separator-free (the
form every segment of a normalized absolute path has). -/
def cleanSegB (s : List Char) : Bool :=
  decide (s ≠ [] ∧ s ≠ ['.'] ∧ s ≠ ['.', '.'] ∧ '/' ∉ s)

theorem cleanSegB_iff {s : List Char} :
    cleanSegB s = true ↔ s ≠ [] ∧ s ≠ ['.'] ∧ s ≠ ['.', '.'] ∧ '/' ∉ s := by
  simp [cleanSegB]

theorem splitOnSlash_ne_nil (cs : List Char) : splitOnSlash cs ≠ [] := by
  induction cs with
  | nil => simp [splitOnSlash]
  | cons c cs ih =>
    rw [splitOnSlash]
    split
    · simp
    · split
      · simp
      · simp

theorem splitOnSlash_append (a b : List Char) :
    splitOnSlash (a ++ '/' :: b) = splitOnSlash a ++ splitOnSlash b := by
  induction a with
  | nil => simp [splitOnSlash]
  | cons c a ih =>
    by_cases hc : c = '/'
    · subst hc
      show splitOnSlash ('/' :: (a ++ '/' :: b)) = splitOnSlash ('/' :: a) ++ splitOnSlash b
      rw [splitOnSlash, if_pos rfl, ih]
      rw [splitOnSlash, if_pos rfl, List.cons_append]
    · show splitOnSlash (c :: (a ++ '/' :: b)) = splitOnSlash (c :: a) ++ splitOnSlash b
      rw [splitOnSlash, if_neg hc, ih]
      rw [splitOnSlash, if_neg hc]
      cases hsa : splitOnSlash a with
      | nil => exact absurd hsa (splitOnSlash_ne_nil a)
      | cons s ss => simp

/-- Splitting a separator-free piece gives just that piece. -/
theorem splitOnSlash_no_sep (s : List Char) (hs : '/' ∉ s) : splitOnSlash s = [s] := by
  induction s with
  | nil => rfl
  | cons c cs ih =>
    have hc : ¬ c = '/' := fun h => hs (by rw [h]; exact List.mem_cons_self _ _)
    rw [splitOnSlash, if_neg hc, ih (fun h => hs (List.mem_cons_of_mem c h))]

theorem splitOnSlash_no_slash (cs : List Char) : ∀ s ∈ splitOnSlash cs, '/' ∉ s := by
  induction cs with
  | nil => simp [splitOnSlash]
  | cons c cs ih =>
    rw [splitOnSlash]
    by_cases hc : c = '/'
    · simp only [if_pos hc]
      intro s hs
      rcases List.mem_cons.mp hs with h | h
      · subst h; simp
      · exact ih s h
    · simp only [if_neg hc]
      cases hsa : splitOnSlash cs with
      | nil => exact absurd hsa (splitOnSlash_ne_nil cs)
      | cons t ts =>
        intro s hs
        rcases List.mem_cons.mp hs with h | h
        · subst h
          intro hmem
          rcases List.mem_cons.mp hmem with h' | h'
          · exact hc h'.symm
          · have := ih t (by rw [hsa]; exact List.mem_cons_self t ts)
            exact this h'
        · exact ih s (by rw [hsa]; exact List.mem_cons_of_mem t h)

theorem interSlash_cons (s : List Char) (rest : List (List Char)) (h : rest ≠ []) :
    interSlash (s :: rest) = s ++ '/' :: interSlash rest := by
  cases rest with
  | nil => exact absurd rfl h
  | cons t ts => rfl

theorem interSlash_ne_nil {L : List (List Char)} (hL : L ≠ [])
    (hclean : ∀ s ∈ L, cleanSegB s = true) : interSlash L ≠ [] := by
  cases L with
  | nil => exact absurd rfl hL
  | cons s rest =>
    have hs := (cleanSegB_iff.mp (hclean s (List.mem_cons_self s rest))).1
    cases rest with
    | nil => simpa [interSlash] using hs
    | cons t ts =>
      rw [interSlash_cons s (t :: ts) (by simp)]
      intro hcontr
      rcases List.append_eq_nil.mp hcontr with ⟨h1, _⟩
      exact hs h1

theorem splitOnSlash_interSlash : ∀ (R : List (List Char)), R ≠ [] →
    (∀ s ∈ R, '/' ∉ s) → splitOnSlash (interSlash R) = R := by
  intro R
  induction R with
  | nil => intro h; exact absurd rfl h
  | cons s rest ih =>
    intro _ hfree
    cases rest with
    | nil => exact splitOnSlash_no_sep s (hfree s (List.mem_cons_self s []))
    | cons t ts =>
      rw [interSlash_cons s (t :: ts) (by simp), splitOnSlash_append,
        splitOnSlash_no_sep s (hfree s (List.mem_cons_self s _)),
        ih (by simp) (fun x hx => hfree x (List.mem_cons_of_mem s hx))]
      rfl

/-- Folding `normalizeString` over clean segments just appends them. -/
theorem foldl_normStepR_clean (ab : Bool) :
    ∀ (segs acc : List (List Char)),
      (∀ s ∈ segs, cleanSegB s = true) →
      segs.foldl (normStepR ab) acc = segs.reverse ++ acc := by
  intro segs
  induction segs with
  | nil => simp
  | cons s rest ih =>
    intro acc hclean
    have hs := cleanSegB_iff.mp (hclean s (List.mem_cons_self s rest))
    rw [List.foldl_cons]
    have hstep : normStepR ab acc s = s :: acc := by
      rw [normStepR.eq_def, if_neg (fun h => h.elim hs.1 hs.2.1), if_neg hs.2.2.1]
    rw [hstep, ih (s :: acc) (fun x hx => hclean x (List.mem_cons_of_mem s hx))]
    simp

/-- One `normalizeString` step of an absolute path keeps the accumulated
segments clean. -/
theorem normStepR_all_clean {acc : List (List Char)}
    (hacc : ∀ s ∈ acc, cleanSegB s = true) {x : List Char} (hx : '/' ∉ x) :
    ∀ s ∈ normStepR false acc x, cleanSegB s = true := by
  intro s hs
  rw [normStepR.eq_def] at hs
  by_cases h1 : x = [] ∨ x = ['.']
  · rw [if_pos h1] at hs; exact hacc s hs
  · rw [if_neg h1] at hs
    by_cases h2 : x = ['.', '.']
    · rw [if_pos h2] at hs
      cases acc with
      | nil => simp at hs
      | cons l rest =>
        simp only [Bool.false_eq_true, if_false] at hs
        by_cases h3 : l = ['.', '.']
        · rw [if_pos h3] at hs
          exact hacc s hs
        · rw [if_neg h3] at hs
          exact hacc s (List.mem_cons_of_mem l hs)
    · rw [if_neg h2] at hs
      rcases List.mem_cons.mp hs with h | h
      · subst h
        push_neg at h1
        exact cleanSegB_iff.mpr ⟨h1.1, h1.2, h2, hx⟩
      · exact hacc s h

/-- `normalizeString` of an absolute path produces only clean segments. -/
theorem foldl_normStepR_all_clean :
    ∀ (segs acc : List (List Char)),
      (∀ s ∈ acc, cleanSegB s = true) → (∀ s ∈ segs, '/' ∉ s) →
      ∀ s ∈ segs.foldl (normStepR false) acc, cleanSegB s = true := by
  intro segs
  induction segs with
  | nil => intro acc hacc _ s hs; exact hacc s hs
  | cons x rest ih =>
    intro acc hacc hfree
    rw [List.foldl_cons]
    exact ih _ (normStepR_all_clean hacc (hfree x (List.mem_cons_self x rest)))
      (fun s hsx => hfree s (List.mem_cons_of_mem x hsx))

theorem normSegs_all_clean (cs : List Char) :
    ∀ s ∈ normSegs false (splitOnSlash cs), cleanSegB s = true := by
  intro s hs
  rw [normSegs, List.mem_reverse] at hs
  exact foldl_normStepR_all_clean _ [] (by simp) (splitOnSlash_no_slash cs) s hs

/-- An option's known last element belongs to the list. -/
theorem getLast?_mem' {α : Type} {l : List α} {c : α} (h : l.getLast? = some c) : c ∈ l := by
  rcases List.mem_getLast?_eq_getLast (x := c) (by rw [Option.mem_def, h]) with ⟨hne, hEq⟩
  rw [hEq]
  exact List.getLast_mem hne

/-- The last element of a list extended on the left is unchanged. -/
theorem getLast?_append_cons {α : Type} : ∀ (s : List α) (c : α) (l : List α),
    (s ++ c :: l).getLast? = (c :: l).getLast? := by
  intro s
  induction s with
  | nil => intro c l; rw [List.nil_append]
  | cons a as iha =>
    intro c l
    rw [List.cons_append]
    cases has : as ++ c :: l with
    | nil => simp at has
    | cons b bs =>
      rw [List.getLast?_cons_cons, ← has, iha]

/-- A clean joined path never ends in a separator. -/
theorem interSlash_getLast_ne_sep : ∀ (M : List (List Char)), M ≠ [] →
    (∀ s ∈ M, cleanSegB s = true) → ∀ c, (interSlash M).getLast? = some c → c ≠ '/' := by
  intro M
  induction M with
  | nil => intro h; exact absurd rfl h
  | cons s rest ih =>
    intro _ hclean c hc
    cases rest with
    | nil =>
      have hs := cleanSegB_iff.mp (hclean s (List.mem_cons_self s []))
      simp only [interSlash] at hc
      intro heq
      exact hs.2.2.2 (by rw [← heq]; exact getLast?_mem' hc)
    | cons t ts =>
      rw [interSlash_cons s (t :: ts) (by simp)] at hc
      have hne : interSlash (t :: ts) ≠ [] :=
        interSlash_ne_nil (by simp) (fun x hx => hclean x (List.mem_cons_of_mem s hx))
      cases hI : interSlash (t :: ts) with
      | nil => exact absurd hI hne
      | cons y ys =>
        rw [hI, getLast?_append_cons, List.getLast?_cons_cons] at hc
        exact ih (by simp) (fun x hx => hclean x (List.mem_cons_of_mem s hx)) c
          (by rw [hI]; exact hc)

/-- `normalize` is the identity on an already-normalized absolute path
(clean segments, optionally a trailing separator). -/
theorem normalizeChars_clean_abs (M : List (List Char)) (t : List Char)
    (hM : M ≠ []) (hclean : ∀ s ∈ M, cleanSegB s = true) (ht : t = [] ∨ t = ['/']) :
    normalizeChars ('/' :: (interSlash M ++ t)) = '/' :: (interSlash M ++ t) := by
  have hfree : ∀ s ∈ M, '/' ∉ s := fun s hs => (cleanSegB_iff.mp (hclean s hs)).2.2.2
  have hbody : interSlash M ≠ [] := interSlash_ne_nil hM hclean
  have hstep0 : normStepR false [] [] = [] := by
    rw [normStepR.eq_def, if_pos (Or.inl rfl)]
  have hsegs : normSegs false (splitOnSlash ('/' :: (interSlash M ++ t))) = M := by
    have h1 : splitOnSlash ('/' :: (interSlash M ++ t))
        = [] :: splitOnSlash (interSlash M ++ t) := by
      rw [splitOnSlash, if_pos rfl]
    rcases ht with ht | ht
    · subst ht
      rw [h1, List.append_nil, splitOnSlash_interSlash M hM hfree, normSegs,
        List.foldl_cons, hstep0, foldl_normStepR_clean false M [] hclean,
        List.append_nil, List.reverse_reverse]
    · subst ht
      rw [h1, show interSlash M ++ ['/'] = interSlash M ++ '/' :: [] from rfl,
        splitOnSlash_append, splitOnSlash_interSlash M hM hfree]
      rw [show ([] :: (M ++ splitOnSlash [])) = ([] :: M) ++ [[]] from by
        simp [splitOnSlash]]
      have hinner : List.foldl (normStepR false) [] ([] :: M) = M.reverse := by
        rw [List.foldl_cons, hstep0, foldl_normStepR_clean false M [] hclean,
          List.append_nil]
      rw [normSegs, List.foldl_append, hinner, List.foldl_cons, List.foldl_nil,
        normStepR.eq_def, if_pos (Or.inl rfl), List.reverse_reverse]
  have hlast : ('/' :: (interSlash M ++ t)).getLast? = some '/' ↔ t = ['/'] := by
    constructor
    · intro hcontr
      rcases ht with ht | ht
      · exfalso
        subst ht
        rw [List.append_nil] at hcontr
        cases hI : interSlash M with
        | nil => exact hbody hI
        | cons y ys =>
          rw [hI, List.getLast?_cons_cons] at hcontr
          exact interSlash_getLast_ne_sep M hM hclean '/' (by rw [hI]; exact hcontr) rfl
      · exact ht
    · intro ht'
      subst ht'
      rw [show ('/' :: (interSlash M ++ ['/'])) = ('/' :: interSlash M) ++ ['/'] from by
        rw [List.cons_append]]
      exact List.getLast?_concat _
  rw [normalizeChars]
  simp only [decide_True, Bool.not_true, if_true, hsegs]
  rw [if_neg hbody]
  rcases ht with ht | ht
  · subst ht
    rw [if_neg (fun h => absurd (hlast.mp h) (by simp))]
    simp
  · subst ht
    rw [if_pos (hlast.mpr rfl)]
    simp

/-- Shape of the inner normalization `join('/', p)` of `_fullPath`: an
absolute path made of clean segments (no `..` survives, since `..` cannot
rise above the root of an absolute path), with at most a trailing
separator. -/
theorem joinSlash_shape (p : String) :
    ∃ L t, (joinTwo "/" p).data = '/' :: (interSlash L ++ t)
      ∧ (∀ s ∈ L, cleanSegB s = true) ∧ (t = [] ∨ t = ['/']) ∧ (L = [] → t = []) := by
  by_cases hp : p = ""
  · subst hp
    exact ⟨[], [], by decide, by simp, Or.inl rfl, fun _ => rfl⟩
  · have hjoin : (joinTwo "/" p).data = normalizeChars ('/' :: '/' :: p.data) := by
      rw [joinTwo.eq_def, if_neg (by decide : ¬("/" : String) = ""), if_neg hp]
      rfl
    have hsplit : splitOnSlash ('/' :: '/' :: p.data)
        = [] :: [] :: splitOnSlash p.data := by
      rw [splitOnSlash, if_pos rfl, splitOnSlash, if_pos rfl]
    have hsegs : normSegs false (splitOnSlash ('/' :: '/' :: p.data))
        = normSegs false (splitOnSlash p.data) := by
      rw [hsplit, normSegs, normSegs, List.foldl_cons, List.foldl_cons]
      congr 2
    have hcleanL : ∀ s ∈ normSegs false (splitOnSlash p.data), cleanSegB s = true :=
      normSegs_all_clean p.data
    by_cases hbody : interSlash (normSegs false (splitOnSlash p.data)) = []
    · refine ⟨[], [], ?_, by simp, Or.inl rfl, fun _ => rfl⟩
      rw [hjoin, normalizeChars]
      simp only [decide_True, Bool.not_true, if_true]
      rw [hsegs, if_pos hbody]
      rfl
    · have hL0ne : normSegs false (splitOnSlash p.data) ≠ [] := by
        intro h
        rw [h] at hbody
        exact hbody rfl
      by_cases hTr : ('/' :: '/' :: p.data).getLast? = some '/'
      · refine ⟨normSegs false (splitOnSlash p.data), ['/'], ?_, hcleanL, Or.inr rfl,
          fun h => absurd h hL0ne⟩
        rw [hjoin, normalizeChars]
        simp only [decide_True, Bool.not_true, if_true]
        rw [hsegs, if_neg hbody, if_pos hTr]
        simp
      · refine ⟨normSegs false (splitOnSlash p.data), [], ?_, hcleanL, Or.inl rfl,
          fun h => absurd h hL0ne⟩
        rw [hjoin, normalizeChars]
        simp only [decide_True, Bool.not_true, if_true]
        rw [hsegs, if_neg hbody, if_neg hTr]
        simp

theorem normStepR_nil (ab : Bool) (acc : List (List Char)) : normStepR ab acc [] = acc := by
  rw [normStepR.eq_def, if_pos (Or.inl rfl)]

theorem interSlash_append (A B : List (List Char)) (hA : A ≠ []) (hB : B ≠ []) :
    interSlash (A ++ B) = interSlash A ++ '/' :: interSlash B := by
  induction A with
  | nil => exact absurd rfl hA
  | cons s rest ih =>
    cases rest with
    | nil =>
      rw [List.singleton_append, interSlash_cons s B hB]
      rfl
    | cons t ts =>
      rw [List.cons_append, interSlash_cons s ((t :: ts) ++ B) (by simp),
        interSlash_cons s (t :: ts) (by simp), ih (by simp)]
      simp

/-- `normalize` of a clean absolute directory joined (with a doubled
separator, as `join` produces) to an already-normalized absolute suffix:
the separators collapse and the segments concatenate. -/
theorem normalizeChars_concat (R L : List (List Char)) (t : List Char)
    (hR : R ≠ []) (hcR : ∀ s ∈ R, cleanSegB s = true)
    (hcL : ∀ s ∈ L, cleanSegB s = true) (ht : t = [] ∨ t = ['/']) (hLt : L = [] → t = []) :
    normalizeChars (('/' :: interSlash R) ++ '/' :: ('/' :: (interSlash L ++ t)))
      = '/' :: (interSlash (R ++ L) ++ (if L = [] ∨ t = ['/'] then ['/'] else [])) := by
  have hfreeR : ∀ s ∈ R, '/' ∉ s := fun s hs => (cleanSegB_iff.mp (hcR s hs)).2.2.2
  have hfreeL : ∀ s ∈ L, '/' ∉ s := fun s hs => (cleanSegB_iff.mp (hcL s hs)).2.2.2
  have hcRL : ∀ s ∈ R ++ L, cleanSegB s = true := by
    intro s hs
    rcases List.mem_append.mp hs with h | h
    · exact hcR s h
    · exact hcL s h
  have hbody : interSlash (R ++ L) ≠ [] := interSlash_ne_nil (by simp [hR]) hcRL
  have hshape : ('/' :: interSlash R) ++ '/' :: ('/' :: (interSlash L ++ t))
      = '/' :: (interSlash R ++ '/' :: ('/' :: (interSlash L ++ t))) := by
    rw [List.cons_append]
  have hsplit : splitOnSlash (('/' :: interSlash R) ++ '/' :: ('/' :: (interSlash L ++ t)))
      = ([] :: R) ++ [] :: splitOnSlash (interSlash L ++ t) := by
    have h0 : splitOnSlash ('/' :: interSlash R) = [] :: R := by
      rw [splitOnSlash.eq_def]
      simp [splitOnSlash_interSlash R hR hfreeR]
    rw [splitOnSlash_append, h0]
    congr 1
  have hfold : ∀ (X : List (List Char)),
      List.foldl (normStepR false) [] (([] :: R) ++ [] :: X)
        = List.foldl (normStepR false) R.reverse X := by
    intro X
    rw [List.cons_append, List.foldl_cons, normStepR_nil, List.foldl_append,
      foldl_normStepR_clean false R [] hcR, List.append_nil, List.foldl_cons,
      normStepR_nil]
  have hlast : (('/' :: interSlash R) ++ '/' :: ('/' :: (interSlash L ++ t))).getLast?
      = ('/' :: (interSlash L ++ t)).getLast? := by
    rw [getLast?_append_cons, List.getLast?_cons_cons]
  rw [normalizeChars.eq_def]
  rw [hshape]
  simp only [decide_True, Bool.not_true, if_true]
  rw [← hshape, hsplit]
  rcases ht with ht | ht
  · subst ht
    by_cases hL : L = []
    · subst hL
      have hsegs : normSegs false (([] :: R) ++ [] :: splitOnSlash (interSlash [] ++ []))
          = R := by
        rw [normSegs, show splitOnSlash (interSlash [] ++ []) = [[]] from rfl, hfold,
          List.foldl_cons, normStepR_nil, List.foldl_nil, List.reverse_reverse]
      rw [hsegs, if_neg (by simpa using hbody)]
      rw [if_pos]
      · simp
      · rw [hlast]
        rfl
    · have hLints : interSlash L ≠ [] := interSlash_ne_nil hL hcL
      have hsegs : normSegs false (([] :: R) ++ [] :: splitOnSlash (interSlash L ++ []))
          = R ++ L := by
        rw [normSegs, List.append_nil, splitOnSlash_interSlash L hL hfreeL, hfold,
          foldl_normStepR_clean false L _ hcL, ← List.reverse_append, List.reverse_reverse]
      rw [hsegs, if_neg hbody]
      rw [if_neg]
      · simp [hL]
      · rw [hlast, List.append_nil]
        cases hI : interSlash L with
        | nil => exact absurd hI hLints
        | cons y ys =>
          rw [List.getLast?_cons_cons]
          intro hcontr
          exact interSlash_getLast_ne_sep L hL hcL '/' (by rw [hI]; exact hcontr) rfl
  · subst ht
    have hL : L ≠ [] := fun h => by simpa using hLt h
    have hsegs : normSegs false (([] :: R) ++ [] :: splitOnSlash (interSlash L ++ ['/']))
        = R ++ L := by
      rw [normSegs, show interSlash L ++ ['/'] = interSlash L ++ '/' :: [] from rfl,
        splitOnSlash_append, splitOnSlash_interSlash L hL hfreeL,
        show splitOnSlash [] = [[]] from rfl, hfold, List.foldl_append,
        foldl_normStepR_clean false L _ hcL, List.foldl_cons, normStepR_nil,
        List.foldl_nil, ← List.reverse_append, List.reverse_reverse]
    rw [hsegs, if_neg hbody]
    rw [if_pos]
    · simp
    · rw [hlast, show ('/' :: (interSlash L ++ ['/'])) = ('/' :: interSlash L) ++ ['/'] from by
        rw [List.cons_append]]
      exact List.getLast?_concat _

/-- A normalized-root predicate: the driver's `$root` is
`resolve(config.root)`, an absolute path with clean segments. -/
def CleanAbsRoot (root : String) : Prop :=
  ∃ R, root.data = '/' :: interSlash R ∧ R ≠ [] ∧ ∀ s ∈ R, cleanSegB s = true

/-- The nonempty `/`-separated segments of a path string. -/
def segsOf (s : String) : List (List Char) :=
  (splitOnSlash s.data).filter (fun x => decide (x ≠ []))

/-- Shape of a resolved full path: the root's own segments followed by
the normalized suffix segments, with at most a trailing separator. -/
theorem fullPath_shape (root p : String) (h : CleanAbsRoot root) :
    ∃ L t, (fullPath root p).data = root.data ++ '/' :: (interSlash L ++ t)
      ∧ (∀ s ∈ L, cleanSegB s = true) ∧ (t = [] ∨ t = ['/']) ∧ (L = [] → t = []) := by
  obtain ⟨R, hroot, hRne, hcR⟩ := h
  obtain ⟨L, t, hinner, hcL, ht, hLt⟩ := joinSlash_shape p
  have hrne : root ≠ "" := by
    intro h0
    rw [h0] at hroot
    exact absurd hroot (by simp [String.data])
  have hine : joinTwo "/" p ≠ "" := by
    intro h0
    rw [h0] at hinner
    exact absurd hinner (by simp [String.data])
  have hjoin : (fullPath root p).data
      = normalizeChars (root.data ++ '/' :: (joinTwo "/" p).data) := by
    rw [fullPath, joinTwo.eq_def, if_neg hrne, if_neg hine]
    rfl
  refine ⟨L, t, ?_, hcL, ht, hLt⟩
  rw [hjoin, hinner, hroot, normalizeChars_concat R L t hRne hcR hcL ht hLt]
  by_cases hL : L = []
  · subst hL
    rw [hLt rfl]
    simp [interSlash]
  · have ht' : (if L = [] ∨ t = ['/'] then ['/'] else []) = t := by
      rcases ht with ht | ht
      · subst ht
        rw [if_neg]
        simp [hL]
      · subst ht
        rw [if_pos (Or.inr rfl)]
    rw [ht', interSlash_append R L hRne hL]
    simp

/-- `segsOf` of a clean absolute path reads back its segments. -/
theorem segsOf_shape (x : String) (M : List (List Char)) (t : List Char)
    (hx : x.data = '/' :: (interSlash M ++ t)) (hcM : ∀ s ∈ M, cleanSegB s = true)
    (ht : t = [] ∨ t = ['/']) (hMt : M = [] → t = []) : segsOf x = M := by
  have hfree : ∀ s ∈ M, '/' ∉ s := fun s hs => (cleanSegB_iff.mp (hcM s hs)).2.2.2
  have hfilter : M.filter (fun x => !decide (x = [])) = M := by
    rw [List.filter_eq_self]
    intro a ha
    simpa using (cleanSegB_iff.mp (hcM a ha)).1
  rw [segsOf, hx]
  by_cases hM : M = []
  · subst hM
    rw [hMt rfl]
    rfl
  · have h1 : splitOnSlash ('/' :: (interSlash M ++ t))
        = [] :: splitOnSlash (interSlash M ++ t) := by
      rw [splitOnSlash.eq_def]
      simp
    rcases ht with ht | ht
    · subst ht
      rw [h1, List.append_nil, splitOnSlash_interSlash M hM hfree, List.filter_cons]
      simp [hfilter]
    · subst ht
      rw [h1, show interSlash M ++ ['/'] = interSlash M ++ '/' :: [] from rfl,
        splitOnSlash_append, splitOnSlash_interSlash M hM hfree,
        show splitOnSlash [] = [[]] from rfl]
      rw [List.filter_cons, List.filter_append, List.filter_cons]
      simp [hfilter]

/-- C1: For every location string `p`, the local-filesystem driver's
`_fullPath` resolves `p` lexically to a path under the driver's root
(the resolved path's segments extend the root's segments by clean,
traversal-free segments), and in particular
`put('../../../dummy_file', X)` and `put('fake_dir/../dummy_file', X)`
both resolve to the root's own `dummy_file`. -/
theorem c1_local_path_clamped (root p : String) (h : CleanAbsRoot root) :
    (∃ extra, segsOf (fullPath root p) = segsOf root ++ extra
        ∧ ∀ s ∈ extra, cleanSegB s = true)
    ∧ fullPath root "../../../dummy_file" = fullPath root "dummy_file"
    ∧ fullPath root "fake_dir/../dummy_file" = fullPath root "dummy_file" := by
  obtain ⟨R, hroot, hRne, hcR⟩ := h
  have hsegroot : segsOf root = R :=
    segsOf_shape root R [] (by rw [hroot]; simp) hcR (Or.inl rfl) (fun _ => rfl)
  refine ⟨?_, ?_, ?_⟩
  · obtain ⟨L, t, hdata, hcL, ht, hLt⟩ := fullPath_shape root p ⟨R, hroot, hRne, hcR⟩
    refine ⟨L, ?_, hcL⟩
    rw [hsegroot]
    by_cases hL : L = []
    · subst hL
      rw [List.append_nil]
      apply segsOf_shape _ R ['/']
      · rw [hdata, hLt rfl, hroot]
        simp [interSlash]
      · exact hcR
      · exact Or.inr rfl
      · intro hc
        exact absurd hc hRne
    · apply segsOf_shape _ (R ++ L) t
      · rw [hdata, hroot, interSlash_append R L hRne hL]
        simp
      · intro s hs
        rcases List.mem_append.mp hs with hs | hs
        · exact hcR s hs
        · exact hcL s hs
      · exact ht
      · intro hc
        exact absurd (List.append_eq_nil.mp hc).1 hRne
  · show joinTwo root (joinTwo "/" "../../../dummy_file")
        = joinTwo root (joinTwo "/" "dummy_file")
    rw [show joinTwo "/" "../../../dummy_file" = joinTwo "/" "dummy_file" from by decide]
  · show joinTwo root (joinTwo "/" "fake_dir/../dummy_file")
        = joinTwo root (joinTwo "/" "dummy_file")
    rw [show joinTwo "/" "fake_dir/../dummy_file" = joinTwo "/" "dummy_file" from by decide]

/-- Witness for C1 at a concrete root and location. -/
theorem c1_local_path_clamped_witness :
    (∃ extra, segsOf (fullPath "/storage" "a/../b") = segsOf "/storage" ++ extra
        ∧ ∀ s ∈ extra, cleanSegB s = true)
    ∧ fullPath "/storage" "../../../dummy_file" = fullPath "/storage" "dummy_file"
    ∧ fullPath "/storage" "fake_dir/../dummy_file" = fullPath "/storage" "dummy_file" :=
  c1_local_path_clamped "/storage" "a/../b"
    ⟨[['s', 't', 'o', 'r', 'a', 'g', 'e']], by decide, by decide, by decide⟩

/-! ### Local driver (src/src/Storage/LocalStorage.ts)

The filesystem under the driver's root is a tree of directories and
files; the driver addresses it with absolute path strings produced by
`_fullPath` (`fullPath` above). -/

/-- A node of the local filesystem: a file with contents, or a directory
with named entries. -/
inductive FSNode where
  | file (content : String)
  | dir (entries : List (String × FSNode))

mutual
/-- Resolves a segment path in the tree. -/
def lookupNode : FSNode → List String → Option FSNode
  | n, [] => some n
  | .file _, _ :: _ => none
  | .dir es, s :: rest => lookupEntries es s rest
/-- Resolves a named entry, then the remaining segments. -/
def lookupEntries : List (String × FSNode) → String → List String → Option FSNode
  | [], _, _ => none
  | (n, node) :: es, s, rest =>
    if n = s then lookupNode node rest else lookupEntries es s rest
end

/-- A chain of fresh directories ending in the given node (`mkdirp`). -/
def mkChain : List String → FSNode → FSNode
  | [], newN => newN
  | s :: rest, newN => .dir [(s, mkChain rest newN)]

mutual
/-- Writes a node at a segment path, creating missing intermediate
directories and replacing whatever sits at the destination; `none` when a
file blocks the directory path (`ENOTDIR`). -/
def insertNode : FSNode → List String → FSNode → Option FSNode
  | _, [], newN => some newN
  | .file _, _ :: _, _ => none
  | .dir es, s :: rest, newN => (insertEntries es s rest newN).map FSNode.dir
def insertEntries : List (String × FSNode) → String → List String → FSNode →
    Option (List (String × FSNode))
  | [], s, rest, newN => some [(s, mkChain rest newN)]
  | (n, node) :: es, s, rest, newN =>
    if n = s then (insertNode node rest newN).map (fun nd => (s, nd) :: es)
    else (insertEntries es s rest newN).map (fun es' => (n, node) :: es')
end

mutual
/-- Removes the node at a segment path (no-op when absent). -/
def removeNode : FSNode → List String → FSNode
  | n, [] => n
  | .file c, _ :: _ => .file c
  | .dir es, s :: rest => .dir (removeEntries es s rest)
def removeEntries : List (String × FSNode) → String → List String → List (String × FSNode)
  | [], _, _ => []
  | (n, node) :: es, s, rest =>
    if n = s then
      (match rest with
       | [] => es
       | _ :: _ => (n, removeNode node rest) :: es)
    else (n, node) :: removeEntries es s rest
end

/-- The nonempty segments of a path, as strings. -/
def segsOfStr (s : String) : List String :=
  ((splitOnSlash s.data).filter (fun x => decide (x ≠ []))).map (fun x => (⟨x⟩ : String))

/-- The segments of an absolute path relative to the root (the paths the
driver hands to the filesystem always lie under the root, by C1). -/
def stripRoot (root p : String) : List String :=
  if p = root then []
  else if preB (root.data ++ ['/']) p.data then
    segsOfStr ⟨p.data.drop (root.data.length + 1)⟩
  else []

/-- Segment-path variant of `_fullPath` for a location string. -/
def relSegs (root loc : String) : List String :=
  stripRoot root (fullPath root loc)

/-- A Node `ENOENT` filesystem error; fs errors carry the offending
absolute path in `err.path`. -/
def enoentErr (p : String) : NativeErr :=
  { code := some (.str "ENOENT"), path := some p }

/-- A Node `EISDIR` filesystem error. -/
def eisdirErr (p : String) : NativeErr :=
  { code := some (.str "EISDIR"), path := some p }

/-- A Node `ENOTDIR` filesystem error. -/
def enotdirErr (p : String) : NativeErr :=
  { code := some (.str "ENOTDIR"), path := some p }

/-- fs-extra `move` rejects a pre-existing destination with a plain
`Error('dest already exists.')` carrying no `code`. -/
def fseDestExistsErr : NativeErr := {}

/-- Segment-list leading-path test. -/
def isSegPre : List String → List String → Bool
  | [], _ => true
  | _ :: _, [] => false
  | a :: as, b :: bs => a = b && isSegPre as bs

/-- Modelled from the spec: the native `fse.readFile` primitive. -/
def fseReadFile (fault : Option NativeErr) (fs : FSNode) (root p : String) :
    Except NativeErr String :=
  match fault with
  | some e => .error e
  | none =>
    match lookupNode fs (stripRoot root p) with
    | some (.file c) => .ok c
    | some (.dir _) => .error (eisdirErr p)
    | none => .error (enoentErr p)

/-- Modelled from the spec: the native `fse.unlink` primitive (files
only). -/
def fseUnlink (fault : Option NativeErr) (fs : FSNode) (root p : String) :
    Except NativeErr FSNode :=
  match fault with
  | some e => .error e
  | none =>
    match lookupNode fs (stripRoot root p) with
    | some (.file _) => .ok (removeNode fs (stripRoot root p))
    | some (.dir _) => .error (eisdirErr p)
    | none => .error (enoentErr p)

/-- Modelled from the spec: the native `fse.copy` primitive (recursive,
`overwrite: true` by default, creates destination directories). -/
def fseCopy (fault : Option NativeErr) (fs : FSNode) (root srcP destP : String) :
    Except NativeErr FSNode :=
  match fault with
  | some e => .error e
  | none =>
    match lookupNode fs (stripRoot root srcP) with
    | none => .error (enoentErr srcP)
    | some node =>
      match insertNode fs (stripRoot root destP) node with
      | some fs' => .ok fs'
      | none => .error (enotdirErr destP)

/-- Modelled from the spec: the native `fse.move` primitive (a rename:
with the default `overwrite: false` an existing destination rejects, a
destination inside the source rejects, otherwise the node is relinked). -/
def fseMove (fault : Option NativeErr) (fs : FSNode) (root srcP destP : String) :
    Except NativeErr FSNode :=
  match fault with
  | some e => .error e
  | none =>
    match lookupNode fs (stripRoot root srcP) with
    | none => .error (enoentErr srcP)
    | some node =>
      if (lookupNode fs (stripRoot root destP)).isSome then .error fseDestExistsErr
      else if isSegPre (stripRoot root srcP) (stripRoot root destP) then
        .error { code := some (.str "EINVAL"), path := some srcP }
      else
        match insertNode (removeNode fs (stripRoot root srcP)) (stripRoot root destP) node with
        | some fs' => .ok fs'
        | none => .error (enotdirErr destP)

/-- Modelled from the spec: `fse.ensureDir(dirname(p))` followed by a
write (`createWriteStream` pipe or `fse.writeFile`): parent directories
are created, an existing file is overwritten, an existing directory or an
obstructing file rejects. -/
def fseEnsureWrite (fault : Option NativeErr) (fs : FSNode) (root p content : String) :
    Except NativeErr FSNode :=
  match fault with
  | some e => .error e
  | none =>
    match lookupNode fs (stripRoot root p) with
    | some (.dir _) => .error (eisdirErr p)
    | _ =>
      match insertNode fs (stripRoot root p) (.file content) with
      | some fs' => .ok fs'
      | none => .error (enotdirErr p)

/-- `LocalStorage.exists` (lines 99-108): `fse.pathExists` resolves a
boolean and never rejects, so the translation branch is dead and the
operation is total. -/
def localExists (fs : FSNode) (root location : String) : ExistsResponse :=
  { exists_ := (lookupNode fs (relSegs root location)).isSome }

/-- `LocalStorage.getBuffer` (lines 113-122); a caught error is
translated with the location string (and the native error's own `path`,
the resolved absolute path, takes precedence inside `handleError`). -/
def localGetBuffer (fault : Option NativeErr) (fs : FSNode) (root location : String) :
    Except StorageError ContentResponse :=
  match fseReadFile fault fs root (fullPath root location) with
  | .ok c => .ok { content := c }
  | .error e => .error (localHandleError e location)

/-- `LocalStorage.delete` (lines 74-94): `wasDeleted` defaults to `true`;
a caught error translating to `FileNotFound` downgrades it to `false`,
anything else is thrown. -/
def localDelete (fault : Option NativeErr) (fs : FSNode) (root location : String) :
    FSNode × Except StorageError DeleteResponse :=
  match fseUnlink fault fs root (fullPath root location) with
  | .ok fs' => (fs', .ok { wasDeleted := some true })
  | .error e =>
    match localHandleError e location with
    | .fileNotFound _ _ => (fs, .ok { wasDeleted := some false })
    | e' => (fs, .error e')

/-- `LocalStorage.copy` (lines 60-69); errors are translated with the
resolved source path. -/
def localCopy (fault : Option NativeErr) (fs : FSNode) (root src dest : String) :
    FSNode × Except StorageError Unit :=
  match fseCopy fault fs root (fullPath root src) (fullPath root dest) with
  | .ok fs' => (fs', .ok ())
  | .error e => (fs, .error (localHandleError e (fullPath root src)))

/-- `LocalStorage.move` (lines 152-161): a single native `fse.move`
(rename); errors are translated with the source location. -/
def localMove (fault : Option NativeErr) (fs : FSNode) (root src dest : String) :
    FSNode × Except StorageError Unit :=
  match fseMove fault fs root (fullPath root src) (fullPath root dest) with
  | .ok fs' => (fs', .ok ())
  | .error e => (fs, .error (localHandleError e src))

/-- `LocalStorage.put` (lines 167-200): streams, buffers and strings are
written (after `ensureDir`); any other shape leaves `result` unset and
raises `InvalidInput` locally, with no filesystem call. -/
def localPut (fault : Option NativeErr) (fs : FSNode) (root location : String)
    (content : Content) : FSNode × Except StorageError Unit :=
  match content with
  | .stream d =>
    (match fseEnsureWrite fault fs root (fullPath root location) d with
     | .ok fs' => (fs', .ok ())
     | .error e => (fs, .error (localHandleError e location)))
  | .buffer d =>
    (match fseEnsureWrite fault fs root (fullPath root location) d with
     | .ok fs' => (fs', .ok ())
     | .error e => (fs, .error (localHandleError e location)))
  | .str d =>
    (match fseEnsureWrite fault fs root (fullPath root location) d with
     | .ok fs' => (fs', .ok ())
     | .error e => (fs, .error (localHandleError e location)))
  | .other =>
    (fs, .error (.invalidInput "content" "LocalStorage#put"
      "only Buffers, ReadableStreams and strings are supported"))

/-- Modelled from the spec: the native `fs.readdir` (with
`withFileTypes`): the entries of a directory; a missing path rejects with
`ENOENT`, a non-directory with `ENOTDIR`. -/
def readdirAt (fs : FSNode) (root p : String) :
    Except NativeErr (List (String × FSNode)) :=
  match lookupNode fs (stripRoot root p) with
  | some (.dir es) => .ok es
  | some (.file _) => .error (enotdirErr p)
  | none => .error (enoentErr p)

mutual
/-- The `for` loop of `flatListAbsolute` (lines 211-227) over a directory
listing: each entry whose joined `fileName` extends the requested prefix
string is yielded (file) or recursed into (directory). -/
def flatListEntries (root pd pfx : String) : List (String × FSNode) → List String
  | [] => []
  | (n, node) :: rest =>
    (if preB pfx.data (joinTwo pd n).data then flatListOne root (joinTwo pd n) node
     else []) ++ flatListEntries root pd pfx rest
/-- One matching entry: a file yields `relative(this.$root, fileName)`; a
directory recurses as `flatListAbsolute(fileName + '/')`, whose
`readdir(prefixDirectory)` re-reads exactly this directory's entries (its
`try` can therefore never catch), with prefix and directory both
`fileName + '/'`. -/
def flatListOne (root fileName : String) : FSNode → List String
  | .file _ => [relativeUnder root fileName]
  | .dir es => flatListEntries root (fileName ++ "/") (fileName ++ "/") es
end

/-- `LocalStorage.flatList` and the top level of `flatListAbsolute`
(lines 202-235): the prefix directory is the prefix itself when it ends
in a separator and its `dirname` otherwise; an `ENOENT` from `readdir` is
swallowed (empty listing), any other error is translated and thrown. -/
def localFlatList (fs : FSNode) (root pfxLoc : String) :
    Except StorageError (List String) :=
  let p := fullPath root pfxLoc
  let pd := if p.data.getLast? = some '/' then p else dirnameStr p
  match readdirAt fs root pd with
  | .ok es => .ok (flatListEntries root pd p es)
  | .error e =>
    match localHandleError e (e.path.getD "") with
    | .fileNotFound _ _ => .ok []
    | e' => .error e'

mutual
/-- All stored object keys of a directory listing (paths relative to the
root, in enumeration order). -/
def allFilesEntries : List (String × FSNode) → List String
  | [] => []
  | (n, node) :: rest => allFilesOne n node ++ allFilesEntries rest
/-- All keys contributed by one named entry. -/
def allFilesOne (n : String) : FSNode → List String
  | .file _ => [n]
  | .dir es => (allFilesEntries es).map (fun k => n ++ "/" ++ k)
end

mutual
/-- A well-formed directory listing: clean, duplicate-free entry names. -/
def cleanEntriesB : List (String × FSNode) → Bool
  | [] => true
  | (n, node) :: rest =>
    cleanSegB n.data && cleanNodeB node && !(rest.any (fun e => e.1 = n))
      && cleanEntriesB rest
/-- A well-formed tree. -/
def cleanNodeB : FSNode → Bool
  | .file _ => true
  | .dir es => cleanEntriesB es
end

example : localFlatList (.dir [("a", .file "1"), ("b", .dir [("c", .file "2")])])
    "/r" "" = .ok ["a", "b/c"] := rfl
example : localFlatList (.dir [("a", .file "1"), ("b", .dir [("c", .file "2")])])
    "/r" "b" = .ok ["b/c"] := rfl
example : localFlatList (.dir [("a", .file "1"), ("b", .dir [("c", .file "2")])])
    "/r" "b/" = .ok ["b/c"] := rfl
example : localFlatList (.dir [("a", .file "1"), ("b", .dir [("c", .file "2")])])
    "/r" "x" = .ok [] := rfl
example : localFlatList (.dir [("a", .file "1"), ("b", .dir [("c", .file "2")])])
    "/r" "a/x" = .error (.unknown (enotdirErr "/r/a") "ENOTDIR" "/r/a") := rfl
example : localFlatList (.dir [("a", .file "1"), ("b", .dir [("c", .file "2")])])
    "/r" "miss/x" = .ok [] := rfl
example : localFlatList (.dir [("ab", .file "1"), ("abc", .dir [("c", .file "2")])])
    "/r" "ab" = .ok ["ab", "abc/c"] := rfl

/-! ### Claim theorems -/

/-- C8 counterexample: the Azure driver supports signed URLs, and with no
expiry option its validity period is 3600 seconds, not 900. -/
theorem c8_signed_expiry_counterexample :
    azureSignedExpiry none = 3600 ∧ ¬ azureSignedExpiry none = 900 := by decide

/-- C8 (amended): `getSignedUrl` without an explicit expiry defaults to
900 seconds on the S3 and GCS drivers, while the Azure driver defaults to
3600 seconds. -/
theorem c8_signed_expiry_defaults :
    s3SignedExpiry none = 900 ∧ s3SignedExpiry (some {}) = 900
    ∧ gcsSignedExpiry none = 900 ∧ gcsSignedExpiry (some {}) = 900
    ∧ azureSignedExpiry none = 3600 ∧ azureSignedExpiry (some {}) = 3600 := by decide

/-- C9: each backend's error translation is total, and any native error
whose code matches none of the listed cases maps to `UnknownException`
carrying the original native code string (JavaScript rendering) and the
original error as cause. -/
theorem c9_translation_total (e : NativeErr) (path bucket : String) :
    (e.name ≠ "NoSuchBucket" → e.name ≠ "NoSuchKey" → e.name ≠ "AllAccessDisabled" →
      s3HandleError e path bucket = .unknown e e.name path)
    ∧ (e.code ≠ some (.str "E_FILE_NOT_FOUND") → e.code ≠ some (.str "ENOENT") →
        e.code ≠ some (.str "EPERM") →
        localHandleError e path = .unknown e (jsCodeString e.code) (e.path.getD path))
    ∧ (e.code ≠ some (.num 401) → e.code ≠ some (.num 403) → e.code ≠ some (.num 404) →
        e.code ≠ some (.str "ENOENT") →
        gcsHandleError e path = .unknown e (jsCodeString e.code) path)
    ∧ (azureErrorCode e ≠ some (.str "BlobNotFound") →
        azureErrorCode e ≠ some (.str "AuthenticationFailed") →
        azureConvertError e = .unknown e (jsCodeString (azureErrorCode e)) (e.url.getD "")) := by
  refine ⟨?_, ?_, ?_, ?_⟩
  · intro h1 h2 h3
    rw [s3HandleError, if_neg h1, if_neg h2, if_neg h3]
  · intro h1 h2 h3
    rw [localHandleError, if_neg (fun h => h.elim h1 h2), if_neg h3]
  · intro h1 h2 h3 h4
    rw [gcsHandleError, if_neg h1, if_neg h2, if_neg h3, if_neg h4]
  · intro h1 h2
    rw [azureConvertError]
    simp only [if_neg h1, if_neg h2]

/-- Witness for C9 at a concrete unlisted native error. -/
theorem c9_translation_total_witness :
    s3HandleError { name := "Mystery", code := some (.str "EWEIRD") } "p" "b"
      = .unknown { name := "Mystery", code := some (.str "EWEIRD") } "Mystery" "p"
    ∧ localHandleError { name := "Mystery", code := some (.str "EWEIRD") } "p"
      = .unknown { name := "Mystery", code := some (.str "EWEIRD") } "EWEIRD" "p"
    ∧ gcsHandleError { name := "Mystery", code := some (.str "EWEIRD") } "p"
      = .unknown { name := "Mystery", code := some (.str "EWEIRD") } "EWEIRD" "p"
    ∧ azureConvertError { name := "Mystery", code := some (.str "EWEIRD") }
      = .unknown { name := "Mystery", code := some (.str "EWEIRD") } "undefined" "" := by
  have h := c9_translation_total { name := "Mystery", code := some (.str "EWEIRD") } "p" "b"
  exact ⟨h.1 (by decide) (by decide) (by decide),
    h.2.1 (by decide) (by decide) (by decide),
    h.2.2.1 (by decide) (by decide) (by decide) (by decide),
    h.2.2.2 (by decide) (by decide)⟩

/-- C3: for a location absent from the backend, `exists` returns
`exists: false` without throwing, on every driver; and the cloud drivers'
`exists` can only throw when a native access/connectivity fault occurred
(the local one never throws: `pathExists` resolves a boolean). -/
theorem c3_exists_absent_false (bucket : String) (st : Store) (L : String)
    (fs : FSNode) (root : String) :
    (storeFind st L = none → s3Exists none bucket st L = .ok { exists_ := false })
    ∧ (storeFind st L = none → gcsExists none st L = .ok { exists_ := false })
    ∧ (storeFind st L = none → azureExists none st L = .ok { exists_ := false })
    ∧ (lookupNode fs (relSegs root L) = none → localExists fs root L = { exists_ := false })
    ∧ (∀ f e, s3Exists f bucket st L = .error e → f ≠ none)
    ∧ (∀ f e, gcsExists f st L = .error e → f ≠ none)
    ∧ (∀ f e, azureExists f st L = .error e → f ≠ none) := by
  refine ⟨?_, ?_, ?_, ?_, ?_, ?_, ?_⟩
  · intro h
    simp [s3Exists, s3HeadObject, h]
  · intro h
    simp [gcsExists, gcsFileExists, h]
  · intro h
    simp [azureExists, azureBlobExists, h]
  · intro h
    simp [localExists, h]
  · intro f e h hf
    subst hf
    rw [s3Exists] at h
    cases hfind : storeFind st L with
    | some c => simp [s3HeadObject, hfind] at h
    | none => simp [s3HeadObject, hfind] at h
  · intro f e h hf
    subst hf
    simp [gcsExists, gcsFileExists] at h
  · intro f e h hf
    subst hf
    simp [azureExists, azureBlobExists] at h

/-- Witness for C3 on an empty store and tree, plus a connectivity fault
actually producing a thrown translated error. -/
theorem c3_exists_absent_false_witness :
    s3Exists none "b" [] "k" = .ok { exists_ := false }
    ∧ gcsExists none [] "k" = .ok { exists_ := false }
    ∧ azureExists none [] "k" = .ok { exists_ := false }
    ∧ localExists (.dir []) "/r" "k" = { exists_ := false }
    ∧ (some { name := "NetworkingError" } : Option NativeErr) ≠ none := by
  have h := c3_exists_absent_false "b" [] "k" (.dir []) "/r"
  exact ⟨h.1 rfl, h.2.1 rfl, h.2.2.1 rfl, h.2.2.2.1 rfl,
    h.2.2.2.2.1 (some { name := "NetworkingError" })
      (.unknown { name := "NetworkingError" } "NetworkingError" "k") rfl⟩

/-- C4 counterexample: on the local driver, `getBuffer` of the absent
location `"missing"` throws a `FileNotFound` whose carried path is the
native error's `path` — the resolved absolute path `"/r/missing"` — not
the requested location string. -/
theorem c4_getbuffer_counterexample :
    localGetBuffer none (.dir []) "/r" "missing"
      = .error (.fileNotFound (enoentErr "/r/missing") "/r/missing")
    ∧ "/r/missing" ≠ "missing" := by
  constructor
  · rfl
  · decide

/-- C4 (amended): `getBuffer` on an absent location throws `FileNotFound`
carrying the original backend error as cause on every driver; the S3 and
GCS drivers carry the requested location string, the local driver carries
the native error's `path` (the resolved absolute path under the root),
and the Azure driver carries the request URL. -/
theorem c4_getbuffer_notfound (bucket containerUrl : String) (st : Store) (L : String)
    (fs : FSNode) (root : String) (habs : storeFind st L = none)
    (hlocal : lookupNode fs (relSegs root L) = none) :
    (∃ e, s3GetBuffer none bucket st L = .error (.fileNotFound e L))
    ∧ (∃ e, gcsGetBuffer none st L = .error (.fileNotFound e L))
    ∧ azureGetBuffer none containerUrl st L
        = .error (.fileNotFound
            { errorCode := some "BlobNotFound", statusCode := some 404,
              url := some (azureBlobUrl containerUrl L) }
            (azureBlobUrl containerUrl L))
    ∧ localGetBuffer none fs root L
        = .error (.fileNotFound (enoentErr (fullPath root L)) (fullPath root L)) := by
  refine ⟨?_, ?_, ?_, ?_⟩
  · exact ⟨{ name := "NoSuchKey", statusCode := some 404 }, by
      simp [s3GetBuffer, s3GetObject, habs, s3HandleError]⟩
  · exact ⟨{ code := some (.num 404), statusCode := some 404 }, by
      simp [gcsGetBuffer, gcsFileDownload, habs, gcsHandleError]⟩
  · simp [azureGetBuffer, azureBlobDownload, habs, azureConvertError, azureErrorCode]
  · have h : relSegs root L = stripRoot root (fullPath root L) := rfl
    simp [localGetBuffer, fseReadFile, ← h, hlocal, localHandleError, enoentErr]

/-- Witness for C4 (amended) at concrete absent locations. -/
theorem c4_getbuffer_notfound_witness :
    (∃ e, s3GetBuffer none "b" [] "k" = .error (.fileNotFound e "k"))
    ∧ (∃ e, gcsGetBuffer none [] "k" = .error (.fileNotFound e "k"))
    ∧ azureGetBuffer none "https://acct/container" [] "k"
        = .error (.fileNotFound
            { errorCode := some "BlobNotFound", statusCode := some 404,
              url := some (azureBlobUrl "https://acct/container" "k") }
            (azureBlobUrl "https://acct/container" "k"))
    ∧ localGetBuffer none (.dir []) "/r" "k"
        = .error (.fileNotFound (enoentErr (fullPath "/r" "k")) (fullPath "/r" "k")) :=
  c4_getbuffer_notfound "b" "https://acct/container" [] "k" (.dir []) "/r" rfl rfl

/-- Whether a thrown result is an `InvalidInput` error. -/
def isInvalidInputE {α : Type} : Except StorageError α → Bool
  | .error (.invalidInput _ _ _) => true
  | _ => false

/-- C5 counterexample: the S3 driver performs no content-shape check; a
value of an unsupported shape is passed straight to the native `upload`
call, whose SDK error comes back backend-translated (`UnknownException`),
not as a locally raised `InvalidInput`. -/
theorem c5_put_shape_counterexample :
    (s3Put none "b" [] "k" .other).2
      = .error (.unknown { name := "InvalidParameterType" } "InvalidParameterType" "k")
    ∧ isInvalidInputE (s3Put none "b" [] "k" .other).2 = false := by
  constructor
  · rfl
  · rfl

/-- C5 (amended): the local, GCS and Azure drivers accept exactly the
three content shapes; any other shape raises `InvalidInput` locally, with
the backend state untouched, regardless of any injected backend fault (no
backend call is reached). Supported shapes on the store-backed drivers
are written. The S3 driver performs no shape check: the content goes to
the native `upload`, whose rejection of an unsupported shape surfaces as
a translated `UnknownException`. -/
theorem c5_put_shape_check (bucket : String) (st : Store) (fs : FSNode)
    (root L : String) (f : Option NativeErr) :
    localPut f fs root L .other
      = (fs, .error (.invalidInput "content" "LocalStorage#put"
          "only Buffers, ReadableStreams and strings are supported"))
    ∧ gcsPut f st L .other
      = (st, .error (.invalidInput "content" "AzureBlobStorage#put"
          "only Buffers, ReadableStreams and strings are supported"))
    ∧ azurePut f st L .other
      = (st, .error (.invalidInput "content" "AzureBlobStorage#put"
          "only Buffers, ReadableStreams and strings are supported"))
    ∧ (∀ d, gcsPut none st L (.buffer d) = (storePut st L d, .ok ())
        ∧ gcsPut none st L (.str d) = (storePut st L d, .ok ())
        ∧ gcsPut none st L (.stream d) = (storePut st L d, .ok ()))
    ∧ (∀ d, azurePut none st L (.buffer d) = (storePut st L d, .ok ())
        ∧ azurePut none st L (.str d) = (storePut st L d, .ok ())
        ∧ azurePut none st L (.stream d) = (storePut st L d, .ok ()))
    ∧ s3Put none bucket st L .other
      = (st, .error (.unknown { name := "InvalidParameterType" } "InvalidParameterType" L)) := by
  refine ⟨rfl, rfl, rfl, ?_, ?_, ?_⟩
  · intro d
    exact ⟨rfl, rfl, rfl⟩
  · intro d
    exact ⟨rfl, rfl, rfl⟩
  · simp [s3Put, s3Upload, contentStr, s3HandleError]

/-- Witness for C5 (amended) at concrete inputs. -/
theorem c5_put_shape_check_witness :
    localPut none (.dir []) "/r" "k" .other
      = (.dir [], .error (.invalidInput "content" "LocalStorage#put"
          "only Buffers, ReadableStreams and strings are supported"))
    ∧ gcsPut none [] "k" (.str "v") = (storePut [] "k" "v", .ok ()) := by
  have h := c5_put_shape_check "b" [] (.dir []) "/r" "k" none
  exact ⟨h.1, (h.2.2.2.1 "v").2.1⟩

/-- Whether a translated error is `FileNotFound`. -/
def isFileNotFoundB : StorageError → Bool
  | .fileNotFound _ _ => true
  | _ => false

/-- C6: `delete` outcome per backend: the S3 driver reports
`wasDeleted = null` whenever it succeeds (the backend cannot report the
outcome); the GCS, Azure and local drivers report `true` on success and
downgrade a missing object to `wasDeleted = false` without throwing; any
fault whose translation is not `FileNotFound` is translated and thrown. -/
theorem c6_delete_contract (bucket containerUrl root : String) (st : Store) (fs : FSNode)
    (L : String) :
    (∀ f st' r, s3Delete f bucket st L = (st', .ok r) → r.wasDeleted = none)
    ∧ (storeFind st L = none → gcsDelete none st L = (st, .ok { wasDeleted := some false }))
    ∧ (∀ c, storeFind st L = some c →
        gcsDelete none st L = (storeDel st L, .ok { wasDeleted := some true }))
    ∧ (storeFind st L = none →
        azureDelete none containerUrl st L = (st, .ok { wasDeleted := some false }))
    ∧ (∀ c, storeFind st L = some c →
        azureDelete none containerUrl st L = (storeDel st L, .ok { wasDeleted := some true }))
    ∧ (lookupNode fs (relSegs root L) = none →
        localDelete none fs root L = (fs, .ok { wasDeleted := some false }))
    ∧ (∀ c, lookupNode fs (relSegs root L) = some (.file c) →
        localDelete none fs root L
          = (removeNode fs (relSegs root L), .ok { wasDeleted := some true }))
    ∧ (∀ f, isFileNotFoundB (localHandleError f L) = false →
        localDelete (some f) fs root L = (fs, .error (localHandleError f L)))
    ∧ (∀ f, isFileNotFoundB (gcsHandleError f L) = false →
        gcsDelete (some f) st L = (st, .error (gcsHandleError f L)))
    ∧ (∀ f, isFileNotFoundB (azureConvertError f) = false →
        azureDelete (some f) containerUrl st L = (st, .error (azureConvertError f))) := by
  refine ⟨?_, ?_, ?_, ?_, ?_, ?_, ?_, ?_, ?_, ?_⟩
  · intro f st' r h
    cases f with
    | none =>
      rw [s3Delete] at h
      simp only [s3DeleteObject] at h
      have := (Prod.mk.injEq _ _ _ _).mp h
      have hr := this.2
      cases hr
      rfl
    | some e =>
      rw [s3Delete] at h
      simp only [s3DeleteObject] at h
      exact absurd ((Prod.mk.injEq _ _ _ _).mp h).2 (by simp)
  · intro h
    simp [gcsDelete, gcsFileDelete, h, gcsHandleError]
  · intro c h
    simp [gcsDelete, gcsFileDelete, h]
  · intro h
    simp [azureDelete, azureBlobDelete, h, azureConvertError, azureErrorCode]
  · intro c h
    simp [azureDelete, azureBlobDelete, h]
  · intro h
    have hrel : relSegs root L = stripRoot root (fullPath root L) := rfl
    simp [localDelete, fseUnlink, ← hrel, h, localHandleError, enoentErr]
  · intro c h
    have hrel : relSegs root L = stripRoot root (fullPath root L) := rfl
    simp [localDelete, fseUnlink, ← hrel, h]
  · intro f hnf
    rw [localDelete]
    simp only [fseUnlink]
    cases he : localHandleError f L <;>
      first
        | rfl
        | (rw [he] at hnf; simp [isFileNotFoundB] at hnf)
  · intro f hnf
    rw [gcsDelete]
    simp only [gcsFileDelete]
    cases he : gcsHandleError f L <;>
      first
        | rfl
        | (rw [he] at hnf; simp [isFileNotFoundB] at hnf)
  · intro f hnf
    rw [azureDelete]
    simp only [azureBlobDelete]
    cases he : azureConvertError f <;>
      first
        | rfl
        | (rw [he] at hnf; simp [isFileNotFoundB] at hnf)

/-- Witness for C6 at concrete stores and trees. -/
theorem c6_delete_contract_witness :
    ({ wasDeleted := none } : DeleteResponse).wasDeleted = none
    ∧ gcsDelete none [] "k" = ([], .ok { wasDeleted := some false })
    ∧ gcsDelete none [("k", "v")] "k"
        = (storeDel [("k", "v")] "k", .ok { wasDeleted := some true })
    ∧ azureDelete none "c" [] "k" = ([], .ok { wasDeleted := some false })
    ∧ localDelete none (.dir []) "/r" "k" = (.dir [], .ok { wasDeleted := some false })
    ∧ localDelete none (.dir [("k", .file "v")]) "/r" "k"
        = (removeNode (.dir [("k", .file "v")]) (relSegs "/r" "k"),
           .ok { wasDeleted := some true })
    ∧ localDelete (some { code := some (.str "EPERM") }) (.dir []) "/r" "k"
        = (.dir [], .error (localHandleError { code := some (.str "EPERM") } "k")) := by
  have h := c6_delete_contract "b" "c" "/r" [] (.dir []) "k"
  have h2 := c6_delete_contract "b" "c" "/r" [("k", "v")] (.dir [("k", .file "v")]) "k"
  exact ⟨h.1 none [] { wasDeleted := none } rfl, h.2.1 rfl, h2.2.2.1 "v" rfl,
    h.2.2.2.1 rfl, h.2.2.2.2.2.1 rfl, h2.2.2.2.2.2.2.1 "v" rfl,
    h.2.2.2.2.2.2.2.1 { code := some (.str "EPERM") } rfl⟩

theorem storeFind_storePut_self (st : Store) (k v : String) :
    storeFind (storePut st k v) k = some v := by
  induction st with
  | nil => simp [storePut, storeFind]
  | cons p rest ih =>
    by_cases h : p.1 = k
    · simp [storePut, storeFind, h]
    · simp [storePut, storeFind, h, ih]

theorem storeFind_storePut_other (st : Store) (k v k' : String) (h : k' ≠ k) :
    storeFind (storePut st k v) k' = storeFind st k' := by
  have h' : ¬ k = k' := fun hh => h hh.symm
  induction st with
  | nil => simp [storePut, storeFind, h']
  | cons p rest ih =>
    by_cases hp : p.1 = k
    · simp [storePut, storeFind, hp, h']
    · simp [storePut, storeFind, hp, ih]

theorem storeFind_storeDel_self (st : Store) (k : String) :
    storeFind (storeDel st k) k = none := by
  induction st with
  | nil => rfl
  | cons p rest ih =>
    by_cases hp : p.1 = k
    · simp [storeDel, List.filter_cons, hp] at ih ⊢
      exact ih
    · simp [storeDel, List.filter_cons, hp, storeFind] at ih ⊢
      exact ih

theorem storeFind_storeDel_other (st : Store) (k k' : String) (h : k' ≠ k) :
    storeFind (storeDel st k) k' = storeFind st k' := by
  simp only [storeDel]
  induction st with
  | nil => rfl
  | cons p rest ih =>
    rw [List.filter_cons]
    by_cases hp : p.1 = k
    · have hdrop : (decide ¬ p.1 = k) = false := by simp [hp]
      rw [hdrop]
      simp only [Bool.false_eq_true, if_false]
      have hfind : storeFind (p :: rest) k' = storeFind rest k' := by
        rw [storeFind, if_neg]
        rw [hp]
        exact fun hh => h hh.symm
      rw [hfind]
      exact ih
    · have hkeep : (decide ¬ p.1 = k) = true := by simp [hp]
      rw [hkeep]
      simp only [if_true]
      rw [storeFind, storeFind]
      by_cases hk' : p.1 = k'
      · rw [if_pos hk', if_pos hk']
      · rw [if_neg hk', if_neg hk']
        exact ih

theorem lookupNode_mkChain : ∀ (segs : List String) (n : FSNode),
    lookupNode (mkChain segs n) segs = some n := by
  intro segs
  induction segs with
  | nil => intro n; exact lookupNode.eq_1 _
  | cons s rest ih =>
    intro n
    show lookupNode (.dir [(s, mkChain rest n)]) (s :: rest) = some n
    rw [lookupNode.eq_3, lookupEntries.eq_2, if_pos rfl]
    exact ih n

mutual
theorem lookupNode_insertNode_self : ∀ (t : FSNode) (segs : List String) (n t' : FSNode),
    insertNode t segs n = some t' → lookupNode t' segs = some n
  | t, [], n, t' => by
    intro h
    rw [insertNode.eq_1] at h
    cases h
    exact lookupNode.eq_1 _
  | .file c, s :: rest, n, t' => by
    intro h
    rw [insertNode.eq_2] at h
    cases h
  | .dir es, s :: rest, n, t' => by
    intro h
    rw [insertNode.eq_3] at h
    cases hi : insertEntries es s rest n with
    | none => rw [hi] at h; cases h
    | some es' =>
      rw [hi] at h
      simp at h
      subst h
      rw [lookupNode.eq_3]
      exact lookupEntries_insertEntries_self es s rest n es' hi
theorem lookupEntries_insertEntries_self : ∀ (es : List (String × FSNode)) (s : String)
    (rest : List String) (n : FSNode) (es' : List (String × FSNode)),
    insertEntries es s rest n = some es' → lookupEntries es' s rest = some n
  | [], s, rest, n, es' => by
    intro h
    rw [insertEntries.eq_1] at h
    cases h
    rw [lookupEntries.eq_2, if_pos rfl]
    exact lookupNode_mkChain rest n
  | (nm, node) :: es, s, rest, n, es' => by
    intro h
    rw [insertEntries.eq_2] at h
    by_cases hns : nm = s
    · rw [if_pos hns] at h
      cases hi : insertNode node rest n with
      | none => rw [hi] at h; cases h
      | some nd =>
        rw [hi] at h
        simp at h
        subst h
        rw [lookupEntries.eq_2, if_pos rfl]
        exact lookupNode_insertNode_self node rest n nd hi
    · rw [if_neg hns] at h
      cases hi : insertEntries es s rest n with
      | none => rw [hi] at h; cases h
      | some es2 =>
        rw [hi] at h
        simp at h
        subst h
        rw [lookupEntries.eq_2, if_neg hns]
        exact lookupEntries_insertEntries_self es s rest n es2 hi
end

theorem lookupEntries_not_mem : ∀ (es : List (String × FSNode)) (s : String)
    (rest : List String), (∀ e ∈ es, e.1 ≠ s) → lookupEntries es s rest = none := by
  intro es
  induction es with
  | nil => intro s rest _; exact lookupEntries.eq_1 s rest
  | cons e es ih =>
    intro s rest hne
    cases e with
    | mk nm node =>
      rw [lookupEntries.eq_2, if_neg (hne (nm, node) (List.mem_cons_self _ _))]
      exact ih s rest (fun x hx => hne x (List.mem_cons_of_mem _ hx))

theorem cleanEntriesB_cons {nm : String} {node : FSNode} {es : List (String × FSNode)}
    (h : cleanEntriesB ((nm, node) :: es) = true) :
    cleanSegB nm.data = true ∧ cleanNodeB node = true
      ∧ (es.any (fun e => e.1 = nm)) = false ∧ cleanEntriesB es = true := by
  rw [cleanEntriesB.eq_2] at h
  simp only [Bool.and_eq_true, Bool.not_eq_true'] at h
  exact ⟨h.1.1.1, h.1.1.2, h.1.2, h.2⟩

mutual
theorem lookupNode_removeNode_self : ∀ (t : FSNode) (s : String) (rest : List String),
    cleanNodeB t = true → lookupNode (removeNode t (s :: rest)) (s :: rest) = none
  | .file c, s, rest, _ => by
    rw [removeNode.eq_2, lookupNode.eq_2]
  | .dir es, s, rest, hc => by
    rw [removeNode.eq_3, lookupNode.eq_3]
    exact lookupEntries_removeEntries_self es s rest (by rw [cleanNodeB.eq_2] at hc; exact hc)
theorem lookupEntries_removeEntries_self : ∀ (es : List (String × FSNode)) (s : String)
    (rest : List String), cleanEntriesB es = true →
    lookupEntries (removeEntries es s rest) s rest = none
  | [], s, rest, _ => by
    rw [removeEntries.eq_1]
    exact lookupEntries.eq_1 s rest
  | (nm, node) :: es, s, rest, hc => by
    obtain ⟨hseg, hnode, hdup, hes⟩ := cleanEntriesB_cons hc
    cases rest with
    | nil =>
      rw [removeEntries.eq_2]
      by_cases hns : nm = s
      · rw [if_pos hns]
        apply lookupEntries_not_mem
        intro e he heq
        have : es.any (fun e => decide (e.1 = nm)) = true := by
          rw [List.any_eq_true]
          exact ⟨e, he, by simp [heq, hns]⟩
        rw [this] at hdup
        cases hdup
      · rw [if_neg hns, lookupEntries.eq_2, if_neg hns]
        exact lookupEntries_removeEntries_self es s [] hes
    | cons r rs =>
      rw [removeEntries.eq_3]
      by_cases hns : nm = s
      · rw [if_pos hns, lookupEntries.eq_2, if_pos hns]
        exact lookupNode_removeNode_self node r rs hnode
      · rw [if_neg hns, lookupEntries.eq_2, if_neg hns]
        exact lookupEntries_removeEntries_self es s (r :: rs) hes
end

theorem lookupNode_mkChain_other : ∀ (dst src : List String) (n : FSNode),
    isSegPre dst src = false → isSegPre src dst = false →
    lookupNode (mkChain dst n) src = none := by
  intro dst
  induction dst with
  | nil => intro src n h1 _; rw [isSegPre] at h1; cases h1
  | cons d ds ih =>
    intro src n h1 h2
    cases src with
    | nil => rw [isSegPre] at h2; cases h2
    | cons s ss =>
      rw [mkChain]
      show lookupNode (.dir [(d, mkChain ds n)]) (s :: ss) = none
      rw [lookupNode.eq_3, lookupEntries.eq_2]
      by_cases hds : d = s
      · rw [if_pos hds]
        subst hds
        rw [isSegPre] at h1 h2
        simp only [decide_True, Bool.true_and] at h1 h2
        exact ih ss n h1 h2
      · rw [if_neg hds]
        exact lookupEntries.eq_1 s ss

mutual
theorem lookupNode_insertNode_other : ∀ (t t' : FSNode) (dst src : List String) (n : FSNode),
    insertNode t dst n = some t' → isSegPre dst src = false → isSegPre src dst = false →
    lookupNode t' src = lookupNode t src
  | t, t', [], src, n => by
    intro _ h1 _
    rw [isSegPre] at h1
    cases h1
  | t, t', d :: ds, [], n => by
    intro _ _ h2
    rw [isSegPre] at h2
    cases h2
  | .file c, t', d :: ds, s :: ss, n => by
    intro h _ _
    rw [insertNode.eq_2] at h
    cases h
  | .dir es, t', d :: ds, s :: ss, n => by
    intro h h1 h2
    rw [insertNode.eq_3] at h
    cases hi : insertEntries es d ds n with
    | none => rw [hi] at h; cases h
    | some es' =>
      rw [hi] at h
      simp at h
      subst h
      rw [lookupNode.eq_3, lookupNode.eq_3]
      exact lookupEntries_insertEntries_other es es' d ds s ss n hi h1 h2
theorem lookupEntries_insertEntries_other : ∀ (es es' : List (String × FSNode)) (d : String)
    (ds : List String) (s : String) (ss : List String) (n : FSNode),
    insertEntries es d ds n = some es' →
    isSegPre (d :: ds) (s :: ss) = false → isSegPre (s :: ss) (d :: ds) = false →
    lookupEntries es' s ss = lookupEntries es s ss
  | [], es', d, ds, s, ss, n => by
    intro h h1 h2
    rw [insertEntries.eq_1] at h
    cases h
    rw [lookupEntries.eq_2, lookupEntries.eq_1]
    by_cases hds : d = s
    · subst hds
      rw [if_pos rfl]
      rw [isSegPre] at h1 h2
      simp only [decide_True, Bool.true_and] at h1 h2
      exact lookupNode_mkChain_other ds ss n h1 h2
    · rw [if_neg hds]
  | (nm, node) :: es, es', d, ds, s, ss, n => by
    intro h h1 h2
    rw [insertEntries.eq_2] at h
    by_cases hnd : nm = d
    · rw [if_pos hnd] at h
      cases hi : insertNode node ds n with
      | none => rw [hi] at h; cases h
      | some nd =>
        rw [hi] at h
        simp at h
        subst h
        rw [lookupEntries.eq_2, lookupEntries.eq_2]
        subst hnd
        by_cases hns : nm = s
        · rw [if_pos hns]
          rw [if_pos hns]
          subst hns
          rw [isSegPre] at h1 h2
          simp only [decide_True, Bool.true_and] at h1 h2
          exact lookupNode_insertNode_other node nd ds ss n hi h1 h2
        · rw [if_neg hns, if_neg hns]
    · rw [if_neg hnd] at h
      cases hi : insertEntries es d ds n with
      | none => rw [hi] at h; cases h
      | some es2 =>
        rw [hi] at h
        simp at h
        subst h
        rw [lookupEntries.eq_2, lookupEntries.eq_2]
        by_cases hns : nm = s
        · rw [if_pos hns, if_pos hns]
        · rw [if_neg hns, if_neg hns]
          exact lookupEntries_insertEntries_other es es2 d ds s ss n hi h1 h2
end

mutual
theorem lookupNode_isSegPre_isSome : ∀ (t : FSNode) (pre segs : List String),
    isSegPre pre segs = true → (lookupNode t segs).isSome = true →
    (lookupNode t pre).isSome = true
  | t, [], segs, _, _ => by
    rw [lookupNode.eq_1]
    rfl
  | t, p :: ps, [], hpre, _ => by
    rw [isSegPre] at hpre
    cases hpre
  | .file c, p :: ps, s :: ss, _, hsome => by
    rw [lookupNode.eq_2] at hsome
    cases hsome
  | .dir es, p :: ps, s :: ss, hpre, hsome => by
    rw [isSegPre] at hpre
    simp only [Bool.and_eq_true, decide_eq_true_eq] at hpre
    obtain ⟨hps, hpre'⟩ := hpre
    subst hps
    rw [lookupNode.eq_3] at hsome ⊢
    exact lookupEntries_isSegPre_isSome es p ps ss hpre' hsome
theorem lookupEntries_isSegPre_isSome : ∀ (es : List (String × FSNode)) (s : String)
    (ps ss : List String), isSegPre ps ss = true →
    (lookupEntries es s ss).isSome = true → (lookupEntries es s ps).isSome = true
  | [], s, ps, ss, _, hsome => by
    rw [lookupEntries.eq_1] at hsome
    cases hsome
  | (nm, node) :: es, s, ps, ss, hpre, hsome => by
    rw [lookupEntries.eq_2] at hsome ⊢
    by_cases hns : nm = s
    · rw [if_pos hns] at hsome ⊢
      exact lookupNode_isSegPre_isSome node ps ss hpre hsome
    · rw [if_neg hns] at hsome ⊢
      exact lookupEntries_isSegPre_isSome es s ps ss hpre hsome
end

/-- C2 counterexample: the local driver's `move` is a native `fse.move`
(rename), not `copy` followed by `delete`: with `a` and `b` both present,
`move('a','b')` rejects (`fse.move` refuses an existing destination),
while `copy('a','b')` followed by `delete('a')` succeeds and overwrites. -/
theorem c2_move_counterexample :
    (localMove none (.dir [("a", .file "1"), ("b", .file "2")]) "/r" "a" "b").2
      = .error (.unknown fseDestExistsErr "undefined" "a")
    ∧ localCopy none (.dir [("a", .file "1"), ("b", .file "2")]) "/r" "a" "b"
      = (.dir [("a", .file "1"), ("b", .file "1")], .ok ())
    ∧ localDelete none (.dir [("a", .file "1"), ("b", .file "1")]) "/r" "a"
      = (.dir [("b", .file "1")], .ok { wasDeleted := some true }) :=
  ⟨rfl, rfl, rfl⟩

/-- C2 (amended): the S3 and Azure drivers implement `move` as `copy`
followed by a delete of the source and are not atomic: if the delete step
fails after a successful copy, the object exists at both locations and
the (translated) delete error is thrown. The local and GCS drivers
instead issue a single native move call. On every driver a successful
`move` leaves the object at `dest` and not at `src`. -/
theorem c2_move_contract (bucket containerUrl root : String) (st : Store) (fs : FSNode)
    (src dest : String) (c : String) (cf df : Option NativeErr) (f : NativeErr) :
    (s3Move cf df bucket st src dest
      = (match s3Copy cf bucket st src dest with
         | (st1, .ok _) =>
           (match s3Delete df bucket st1 src with
            | (st2, .ok _) => (st2, .ok ())
            | (st2, .error e) => (st2, .error e))
         | (st1, .error e) => (st1, .error e)))
    ∧ (azureMove cf df containerUrl st src dest
      = (match azureCopy cf containerUrl st src dest with
         | (st1, .ok _) =>
           (match azureBlobDelete df containerUrl st1 src with
            | .ok st2 => (st2, .ok ())
            | .error e => (st1, .error (azureConvertError e)))
         | (st1, .error e) => (st1, .error e)))
    ∧ (storeFind st src = some c → src ≠ dest →
        s3Move none none bucket st src dest = (storeDel (storePut st dest c) src, .ok ())
        ∧ s3Exists none bucket (storeDel (storePut st dest c) src) dest
            = .ok { exists_ := true }
        ∧ s3Exists none bucket (storeDel (storePut st dest c) src) src
            = .ok { exists_ := false })
    ∧ (storeFind st src = some c → src ≠ dest →
        gcsMove none st src dest = (storeDel (storePut st dest c) src, .ok ())
        ∧ gcsExists none (storeDel (storePut st dest c) src) dest = .ok { exists_ := true }
        ∧ gcsExists none (storeDel (storePut st dest c) src) src = .ok { exists_ := false })
    ∧ (storeFind st src = some c → src ≠ dest →
        azureMove none none containerUrl st src dest
          = (storeDel (storePut st dest c) src, .ok ())
        ∧ azureExists none (storeDel (storePut st dest c) src) dest = .ok { exists_ := true }
        ∧ azureExists none (storeDel (storePut st dest c) src) src = .ok { exists_ := false })
    ∧ (∀ fs', cleanNodeB fs = true → localMove none fs root src dest = (fs', .ok ()) →
        localExists fs' root dest = { exists_ := true }
        ∧ localExists fs' root src = { exists_ := false })
    ∧ (storeFind st src = some c → src ≠ dest →
        s3Move none (some f) bucket st src dest
          = (storePut st dest c, .error (s3HandleError f src bucket))
        ∧ storeFind (storePut st dest c) src = some c
        ∧ storeFind (storePut st dest c) dest = some c)
    ∧ (storeFind st src = some c → src ≠ dest →
        azureMove none (some f) containerUrl st src dest
          = (storePut st dest c, .error (azureConvertError f))
        ∧ storeFind (storePut st dest c) src = some c
        ∧ storeFind (storePut st dest c) dest = some c) := by
  have hput_src : storeFind st src = some c → src ≠ dest →
      storeFind (storePut st dest c) src = some c := by
    intro hsrc hne
    rw [storeFind_storePut_other st dest c src hne]
    exact hsrc
  refine ⟨rfl, rfl, ?_, ?_, ?_, ?_, ?_, ?_⟩
  · intro hsrc hne
    refine ⟨?_, ?_, ?_⟩
    · simp [s3Move, s3Copy, s3CopyObject, hsrc, s3Delete, s3DeleteObject]
    · simp [s3Exists, s3HeadObject,
        storeFind_storeDel_other (storePut st dest c) src dest (fun h => hne h.symm),
        storeFind_storePut_self]
    · simp [s3Exists, s3HeadObject, storeFind_storeDel_self]
  · intro hsrc hne
    refine ⟨?_, ?_, ?_⟩
    · simp [gcsMove, gcsFileMove, hsrc]
    · simp [gcsExists, gcsFileExists,
        storeFind_storeDel_other (storePut st dest c) src dest (fun h => hne h.symm),
        storeFind_storePut_self]
    · simp [gcsExists, gcsFileExists, storeFind_storeDel_self]
  · intro hsrc hne
    refine ⟨?_, ?_, ?_⟩
    · simp [azureMove, azureCopy, azureBlobCopyFromUrl, hsrc, azureBlobDelete,
        hput_src hsrc hne]
    · simp [azureExists, azureBlobExists,
        storeFind_storeDel_other (storePut st dest c) src dest (fun h => hne h.symm),
        storeFind_storePut_self]
    · simp [azureExists, azureBlobExists, storeFind_storeDel_self]
  · intro fs' hclean hmv
    rw [localMove] at hmv
    cases hfm : fseMove none fs root (fullPath root src) (fullPath root dest) with
    | error e =>
      rw [hfm] at hmv
      simp at hmv
    | ok fs2 =>
      rw [hfm] at hmv
      simp only [Prod.mk.injEq] at hmv
      have hfs2 : fs2 = fs' := hmv.1
      subst hfs2
      rw [fseMove] at hfm
      cases hsrc : lookupNode fs (stripRoot root (fullPath root src)) with
      | none =>
        rw [hsrc] at hfm
        cases hfm
      | some node =>
        rw [hsrc] at hfm
        simp only [] at hfm
        by_cases hdest : (lookupNode fs (stripRoot root (fullPath root dest))).isSome = true
        · rw [if_pos hdest] at hfm
          cases hfm
        · rw [if_neg hdest] at hfm
          by_cases hpre : isSegPre (stripRoot root (fullPath root src))
              (stripRoot root (fullPath root dest)) = true
          · rw [if_pos hpre] at hfm
            cases hfm
          · rw [if_neg hpre] at hfm
            cases hins : insertNode (removeNode fs (stripRoot root (fullPath root src)))
                (stripRoot root (fullPath root dest)) node with
            | none =>
              rw [hins] at hfm
              cases hfm
            | some fs3 =>
              rw [hins] at hfm
              have hfs3 : fs3 = fs2 := by
                injection hfm with hh
              subst hfs3
              have hpre' : isSegPre (stripRoot root (fullPath root src))
                  (stripRoot root (fullPath root dest)) = false :=
                Bool.eq_false_iff.mpr hpre
              have hnotpre1 : isSegPre (stripRoot root (fullPath root dest))
                  (stripRoot root (fullPath root src)) = false := by
                cases hb : isSegPre (stripRoot root (fullPath root dest))
                    (stripRoot root (fullPath root src)) with
                | false => rfl
                | true =>
                  exact absurd (lookupNode_isSegPre_isSome fs _ _ hb (by rw [hsrc]; rfl))
                    hdest
              constructor
              · show ({ exists_ := (lookupNode fs3 (relSegs root dest)).isSome }
                    : ExistsResponse) = { exists_ := true }
                rw [show relSegs root dest = stripRoot root (fullPath root dest) from rfl,
                  lookupNode_insertNode_self _ _ _ _ hins]
                rfl
              · show ({ exists_ := (lookupNode fs3 (relSegs root src)).isSome }
                    : ExistsResponse) = { exists_ := false }
                have hother : lookupNode fs3 (stripRoot root (fullPath root src))
                    = lookupNode (removeNode fs (stripRoot root (fullPath root src)))
                        (stripRoot root (fullPath root src)) :=
                  lookupNode_insertNode_other _ _ _ _ _ hins hnotpre1 hpre'
                cases hss : stripRoot root (fullPath root src) with
                | nil =>
                  rw [hss, isSegPre] at hpre'
                  cases hpre'
                | cons s0 ss0 =>
                  have hrem : lookupNode (removeNode fs (s0 :: ss0)) (s0 :: ss0) = none :=
                    lookupNode_removeNode_self fs s0 ss0 hclean
                  rw [hss] at hother
                  rw [show relSegs root src = stripRoot root (fullPath root src) from rfl,
                    hss, hother, hrem]
                  rfl
  · intro hsrc hne
    refine ⟨?_, hput_src hsrc hne, storeFind_storePut_self st dest c⟩
    simp [s3Move, s3Copy, s3CopyObject, hsrc, s3Delete, s3DeleteObject]
  · intro hsrc hne
    refine ⟨?_, hput_src hsrc hne, storeFind_storePut_self st dest c⟩
    simp [azureMove, azureCopy, azureBlobCopyFromUrl, hsrc, azureBlobDelete]

/-- Witness for C2 (amended) at concrete stores and trees, including a
delete fault injected after a successful copy. -/
theorem c2_move_contract_witness :
    (s3Move none none "bk" [("a", "1")] "a" "b"
        = (storeDel (storePut [("a", "1")] "b" "1") "a", .ok ())
      ∧ s3Exists none "bk" (storeDel (storePut [("a", "1")] "b" "1") "a") "b"
          = .ok { exists_ := true }
      ∧ s3Exists none "bk" (storeDel (storePut [("a", "1")] "b" "1") "a") "a"
          = .ok { exists_ := false })
    ∧ (localExists (.dir [("b", .file "1")]) "/r" "b" = { exists_ := true }
      ∧ localExists (.dir [("b", .file "1")]) "/r" "a" = { exists_ := false })
    ∧ (s3Move none (some { name := "InternalError" }) "bk" [("a", "1")] "a" "b"
        = (storePut [("a", "1")] "b" "1",
           .error (s3HandleError { name := "InternalError" } "a" "bk"))
      ∧ storeFind (storePut [("a", "1")] "b" "1") "a" = some "1"
      ∧ storeFind (storePut [("a", "1")] "b" "1") "b" = some "1") := by
  have h := c2_move_contract "bk" "cu" "/r" [("a", "1")] (.dir [("a", .file "1")])
    "a" "b" "1" none none { name := "InternalError" }
  exact ⟨h.2.2.1 rfl (by decide),
    h.2.2.2.2.2.1 (.dir [("b", .file "1")]) rfl rfl,
    h.2.2.2.2.2.2.1 rfl (by decide)⟩

theorem string_ext {a b : String} (h : a.data = b.data) : a = b := by
  cases a
  cases b
  exact congrArg String.mk h

theorem preB_self_append : ∀ (a x : List Char), preB a (a ++ x) = true := by
  intro a
  induction a with
  | nil => intro x; rfl
  | cons c a ih =>
    intro x
    rw [List.cons_append, preB]
    simp [ih]

theorem preB_append_cancel : ∀ (a b c : List Char), preB (a ++ b) (a ++ c) = preB b c := by
  intro a
  induction a with
  | nil => intro b c; rfl
  | cons x a ih =>
    intro b c
    rw [List.cons_append, List.cons_append, preB]
    simp [ih]

/-- A pattern containing a separator cannot lead a separator-free word. -/
theorem preB_sep_free : ∀ (s u v : List Char), '/' ∉ v → preB (s ++ '/' :: u) v = false := by
  intro s
  induction s with
  | nil =>
    intro u v hv
    cases v with
    | nil => rfl
    | cons w v' =>
      rw [List.nil_append, preB]
      have : ¬ ('/' : Char) = w := fun h => hv (by rw [h]; exact List.mem_cons_self _ _)
      simp [this]
  | cons c s ih =>
    intro u v hv
    cases v with
    | nil => rfl
    | cons w v' =>
      rw [List.cons_append, preB]
      by_cases hcw : c = w
      · simp only [hcw, decide_True, Bool.true_and]
        exact ih u v' (fun h => hv (List.mem_cons_of_mem w h))
      · simp [hcw]

/-- Leading-segment comparison: with separator-free first segments, a
pattern `s ++ '/' ++ u` leads `n ++ '/' ++ v` exactly when the first
segments agree and `u` leads `v`. -/
theorem preB_seg : ∀ (s n u v : List Char), '/' ∉ s → '/' ∉ n →
    preB (s ++ '/' :: u) (n ++ '/' :: v) = (decide (s = n) && preB u v) := by
  intro s
  induction s with
  | nil =>
    intro n u v _ hn
    cases n with
    | nil =>
      rw [List.nil_append, List.nil_append, preB]
      simp
    | cons m n' =>
      rw [List.nil_append, List.cons_append, preB]
      have : ¬ ('/' : Char) = m := fun h => hn (by rw [h]; exact List.mem_cons_self _ _)
      simp [this]
  | cons c s' ih =>
    intro n u v hs hn
    cases n with
    | nil =>
      rw [List.cons_append, List.nil_append, preB]
      have : ¬ c = '/' := fun h => hs (by rw [h]; exact List.mem_cons_self _ _)
      simp [this]
    | cons m n' =>
      rw [List.cons_append, List.cons_append, preB]
      by_cases hcm : c = m
      · subst hcm
        rw [ih n' u v (fun h => hs (List.mem_cons_of_mem c h))
          (fun h => hn (List.mem_cons_of_mem c h))]
        simp [List.cons_eq_cons]
      · simp [hcm, List.cons_eq_cons]

/-- A separator-free pattern ignores everything behind the first
separator of the word. -/
theorem preB_free_vs_sep : ∀ (lc n v : List Char), '/' ∉ lc →
    preB lc (n ++ '/' :: v) = preB lc n := by
  intro lc
  induction lc with
  | nil => intro n v _; rfl
  | cons c lc' ih =>
    intro n v hlc
    cases n with
    | nil =>
      rw [List.nil_append, preB.eq_3, preB.eq_2]
      have : ¬ c = '/' := fun h => hlc (by rw [h]; exact List.mem_cons_self _ _)
      simp [this]
    | cons m n' =>
      rw [List.cons_append, preB.eq_3, preB.eq_3]
      by_cases hcm : c = m
      · simp only [hcm, decide_True, Bool.true_and]
        exact ih n' v (fun h => hlc (List.mem_cons_of_mem c h))
      · simp [hcm]

theorem dropWhile_append_all {α : Type} (p : α → Bool) (a b : List α)
    (h : ∀ x ∈ a, p x = true) : (a ++ b).dropWhile p = b.dropWhile p := by
  induction a with
  | nil => rfl
  | cons x a ih =>
    rw [List.cons_append, List.dropWhile_cons, if_pos (h x (List.mem_cons_self _ _))]
    exact ih (fun y hy => h y (List.mem_cons_of_mem x hy))

/-- `dirname` of a clean absolute path with one appended component strips
exactly that component. -/
theorem dirnameChars_concat (M : List (List Char)) (lc : List Char)
    (hM : M ≠ []) (hclean : ∀ s ∈ M, cleanSegB s = true) (hlc : lc ≠ []) (hfree : '/' ∉ lc) :
    dirnameChars (('/' :: interSlash M) ++ '/' :: lc) = '/' :: interSlash M := by
  obtain ⟨d, ds, hrev⟩ : ∃ d ds, lc.reverse = d :: ds := by
    cases hcase : lc.reverse with
    | nil =>
      exfalso
      apply hlc
      have := congrArg List.reverse hcase
      simpa using this
    | cons d ds => exact ⟨d, ds, rfl⟩
  have hd_mem : d ∈ lc := by
    have : d ∈ lc.reverse := by rw [hrev]; exact List.mem_cons_self _ _
    exact List.mem_reverse.mp this
  have hd : ¬ d = '/' := fun h => hfree (h ▸ hd_mem)
  have hds : ∀ x ∈ ds, x ∈ lc := by
    intro x hx
    exact List.mem_reverse.mp (by rw [hrev]; exact List.mem_cons_of_mem d hx)
  have hrev_p : (('/' :: interSlash M) ++ '/' :: lc).reverse
      = d :: (ds ++ '/' :: ((interSlash M).reverse ++ ['/'])) := by
    rw [List.reverse_append, List.reverse_cons, List.reverse_cons, hrev]
    simp
  have hr1 : ((('/' :: interSlash M) ++ '/' :: lc).reverse).dropWhile (· = '/')
      = d :: (ds ++ '/' :: ((interSlash M).reverse ++ ['/'])) := by
    rw [hrev_p, List.dropWhile_cons, if_neg (by simp [hd])]
  have hr2 : (d :: (ds ++ '/' :: ((interSlash M).reverse ++ ['/']))).dropWhile (· ≠ '/')
      = '/' :: ((interSlash M).reverse ++ ['/']) := by
    rw [show d :: (ds ++ '/' :: ((interSlash M).reverse ++ ['/']))
        = (d :: ds) ++ '/' :: ((interSlash M).reverse ++ ['/']) from by simp]
    rw [dropWhile_append_all _ _ _ (by
      intro x hx
      rcases List.mem_cons.mp hx with hx | hx
      · subst hx
        simp [hd]
      · have hmem : x ∈ lc := hds x hx
        have : ¬ x = '/' := fun h => hfree (by rw [← h]; exact hmem)
        simp [this])]
    rw [List.dropWhile_cons, if_neg (by simp)]
  have hP : (('/' :: interSlash M) ++ '/' :: lc) = '/' :: (interSlash M ++ '/' :: lc) := by
    rw [List.cons_append]
  rw [hP] at hr1 ⊢
  rw [dirnameChars.eq_def]
  simp only [hr1, hr2]
  rw [if_neg (by simp : ¬ ('/' :: ((interSlash M).reverse ++ ['/']) : List Char) = [])]
  have hres : (List.drop 1 ('/' :: ((interSlash M).reverse ++ ['/']))).reverse
      = '/' :: interSlash M := by simp
  rw [hres]
  have hMne : interSlash M ≠ [] := interSlash_ne_nil hM hclean
  rw [if_neg (by simp : ¬ ('/' :: interSlash M : List Char) = [])]
  rw [if_neg (fun hcontr => hMne (by simpa using hcontr.2))]

/-! ### flatList correctness (C7, C10)

The local driver's `flatListAbsolute` walk is compared against the full
enumeration `allFilesEntries` filtered by the resolved prefix. -/

/-- The character lists of a segment-string list. -/
def strSegs (W : List String) : List (List Char) :=
  W.map String.data

/-- Prefixes a relative key with the segments of its directory (the shape
`join(prefixDirectory, file.name)` takes relative to the root). -/
def withDirS : List String → String → String
  | [], k => k
  | s :: W, k => s ++ "/" ++ withDirS W k

/-- The relative prefix pattern rooted at a segment path. -/
def relPat : List String → List Char → List Char
  | [], lc => lc
  | s :: W, lc => s.data ++ '/' :: relPat W lc

/-- The resolved prefix of a `flatList` call, relative to the root (the
resolved absolute prefix with the root and its separator stripped). -/
def relOfLoc (root loc : String) : List Char :=
  (fullPath root loc).data.drop (root.data.length + 1)

/-- The `prefixDirectory` of `flatListAbsolute` (line 208): the prefix
itself when it ends in a separator, its `dirname` otherwise. -/
def localPd (root loc : String) : String :=
  let p := fullPath root loc
  if p.data.getLast? = some '/' then p else dirnameStr p

theorem data_append (a b : String) : (a ++ b).data = a.data ++ b.data := rfl

theorem strSegs_map (M : List (List Char)) :
    strSegs (M.map (fun x => (⟨x⟩ : String))) = M := by
  rw [strSegs, List.map_map]
  have h : (String.data ∘ fun x => (⟨x⟩ : String)) = fun x => x := rfl
  rw [h, List.map_id']

theorem withDirS_append_single : ∀ (W : List String) (n k : String),
    withDirS (W ++ [n]) k = withDirS W (n ++ "/" ++ k) := by
  intro W
  induction W with
  | nil => intro n k; rfl
  | cons s W ih =>
    intro n k
    rw [List.cons_append, withDirS, withDirS, ih]

theorem withDirS_data : ∀ (W : List String) (k : String), W ≠ [] →
    (withDirS W k).data = interSlash (strSegs W) ++ '/' :: k.data := by
  intro W
  induction W with
  | nil => intro k h; exact absurd rfl h
  | cons s W ih =>
    intro k _
    rw [withDirS]
    cases W with
    | nil =>
      show (s ++ "/" ++ k).data = interSlash [s.data] ++ '/' :: k.data
      rw [data_append, data_append, show "/".data = ['/'] from by decide]
      show s.data ++ ['/'] ++ k.data = s.data ++ '/' :: k.data
      simp
    | cons s2 W2 =>
      rw [data_append, data_append, ih k (by simp)]
      rw [show strSegs (s :: s2 :: W2) = s.data :: strSegs (s2 :: W2) from rfl,
        interSlash_cons s.data (strSegs (s2 :: W2)) (by simp [strSegs])]
      simp

theorem relPat_eq : ∀ (W : List String) (lc : List Char), W ≠ [] →
    relPat W lc = interSlash (strSegs W) ++ '/' :: lc := by
  intro W
  induction W with
  | nil => intro lc h; exact absurd rfl h
  | cons s W ih =>
    intro lc _
    rw [relPat]
    cases W with
    | nil => rfl
    | cons s2 W2 =>
      rw [ih lc (by simp),
        show strSegs (s :: s2 :: W2) = s.data :: strSegs (s2 :: W2) from rfl,
        interSlash_cons s.data (strSegs (s2 :: W2)) (by simp [strSegs])]
      simp

/-- A pattern strictly longer than the word never leads it. -/
theorem interSlash_single (s : List Char) : interSlash [s] = s := by
  rw [show ([s] : List (List Char)) = s :: [] from rfl, interSlash]

theorem preB_longer (x u : List Char) : preB (x ++ '/' :: u) x = false := by
  have := preB_append_cancel x ('/' :: u) []
  rw [List.append_nil] at this
  rw [this]
  rfl

/-- `join` of a clean absolute directory path (with or without a trailing
separator) and a clean entry name: the name is appended as one further
segment. -/
theorem joinTwo_dir (M : List (List Char)) (t : List Char) (pd n : String)
    (hM : M ≠ []) (hcM : ∀ s ∈ M, cleanSegB s = true) (ht : t = [] ∨ t = ['/'])
    (hpd : pd.data = '/' :: (interSlash M ++ t)) (hn : cleanSegB n.data = true) :
    (joinTwo pd n).data = '/' :: interSlash (M ++ [n.data]) := by
  obtain ⟨hn1, _, _, hn4⟩ := cleanSegB_iff.mp hn
  have hpdne : pd ≠ "" := by
    intro h
    rw [h] at hpd
    exact absurd hpd.symm (by simp [String.data])
  have hnne : n ≠ "" := by
    intro h
    apply hn1
    rw [show n.data = ("" : String).data from by rw [h]]
  have hM2 : M ++ [n.data] ≠ [] := by simp
  have hcM2 : ∀ s ∈ M ++ [n.data], cleanSegB s = true := by
    intro s hs
    rcases List.mem_append.mp hs with h | h
    · exact hcM s h
    · rw [List.mem_singleton.mp h]
      exact hn
  have hjoin : (joinTwo pd n).data = normalizeChars (pd.data ++ '/' :: n.data) := by
    rw [joinTwo.eq_def, if_neg hpdne, if_neg hnne]
    rfl
  rcases ht with ht | ht
  · subst ht
    rw [List.append_nil] at hpd
    have hsh : pd.data ++ '/' :: n.data = '/' :: (interSlash (M ++ [n.data]) ++ []) := by
      rw [hpd, interSlash_append M [n.data] hM (by simp), interSlash_single]
      simp
    rw [hjoin, hsh, normalizeChars_clean_abs (M ++ [n.data]) [] hM2 hcM2 (Or.inl rfl)]
    simp
  · subst ht
    have hsh : pd.data ++ '/' :: n.data
        = ('/' :: interSlash M) ++ '/' :: ('/' :: (interSlash [n.data] ++ [])) := by
      rw [hpd, interSlash_single]
      simp
    rw [hjoin, hsh, normalizeChars_concat M [n.data] [] hM hcM
      (by intro s hs; rw [List.mem_singleton.mp hs]; exact hn) (Or.inl rfl)
      (by intro h; cases h)]
    rw [if_neg (by simp)]
    simp

/-- `relative(root, q)` for a path `q` directly under the root: the root
and its separator are stripped. -/
theorem relativeUnder_of_shape (root q : String) (X : List Char)
    (hq : q.data = root.data ++ '/' :: X) : relativeUnder root q = ⟨X⟩ := by
  have hq2 : q.data = (root.data ++ ['/']) ++ X := by rw [hq]; simp
  rw [relativeUnder, if_pos (by rw [hq2]; exact preB_self_append _ _)]
  apply string_ext
  show (q.data.drop (root.data.length + 1)) = X
  rw [hq2, show root.data.length + 1 = (root.data ++ ['/']).length from by simp,
    List.drop_left]

/-- The nonempty segments of a relative clean path read back its
segments. -/
theorem segsOfStr_rel (M : List (List Char)) (t : List Char)
    (hcM : ∀ s ∈ M, cleanSegB s = true) (ht : t = [] ∨ t = ['/']) (hMt : M = [] → t = []) :
    segsOfStr ⟨interSlash M ++ t⟩ = M.map (fun x => (⟨x⟩ : String)) := by
  have hfree : ∀ s ∈ M, '/' ∉ s := fun s hs => (cleanSegB_iff.mp (hcM s hs)).2.2.2
  have hfilter : M.filter (fun x => !decide (x = [])) = M := by
    rw [List.filter_eq_self]
    intro a ha
    simpa using (cleanSegB_iff.mp (hcM a ha)).1
  by_cases hM : M = []
  · subst hM
    rw [hMt rfl]
    rfl
  · rw [segsOfStr]
    show ((splitOnSlash (interSlash M ++ t)).filter (fun x => decide (x ≠ []))).map _
      = M.map _
    rcases ht with ht | ht
    · subst ht
      rw [List.append_nil, splitOnSlash_interSlash M hM hfree]
      congr 1
      simpa using hfilter
    · subst ht
      rw [show interSlash M ++ ['/'] = interSlash M ++ '/' :: [] from rfl,
        splitOnSlash_append, splitOnSlash_interSlash M hM hfree,
        show splitOnSlash [] = [[]] from rfl, List.filter_append,
        show ([([] : List Char)] : List (List Char)).filter (fun x => decide (x ≠ []))
          = [] from rfl, List.append_nil]
      congr 1
      simpa using hfilter

/-- `stripRoot` of a clean path strictly under the root. -/
theorem stripRoot_of_shape (root q : String) (M : List (List Char)) (t : List Char)
    (hq : q.data = root.data ++ '/' :: (interSlash M ++ t))
    (hcM : ∀ s ∈ M, cleanSegB s = true) (ht : t = [] ∨ t = ['/']) (hMt : M = [] → t = []) :
    stripRoot root q = M.map (fun x => (⟨x⟩ : String)) := by
  have hq2 : q.data = (root.data ++ ['/']) ++ (interSlash M ++ t) := by rw [hq]; simp
  have hqne : q ≠ root := by
    intro h
    have hlen : q.data.length = root.data.length := by rw [h]
    rw [hq] at hlen
    simp only [List.length_append, List.length_cons] at hlen
    omega
  rw [stripRoot, if_neg hqne, if_pos (by rw [hq2]; exact preB_self_append _ _)]
  rw [show q.data.drop (root.data.length + 1) = interSlash M ++ t from by
    rw [hq2, show root.data.length + 1 = (root.data ++ ['/']).length from by simp,
      List.drop_left]]
  exact segsOfStr_rel M t hcM ht hMt

/-- Keys below an entry whose name fails the separator-free pattern all
fail it. -/
theorem allFilesOne_filter_none (n : String) (node : FSNode) (lc : List Char)
    (hfree : '/' ∉ lc) (hbn : preB lc n.data = false) :
    (allFilesOne n node).filter (fun k => preB lc k.data) = [] := by
  rw [List.filter_eq_nil]
  intro k hk
  cases node with
  | file c =>
    rw [allFilesOne.eq_1] at hk
    rw [List.mem_singleton.mp hk]
    simp [hbn]
  | dir es =>
    rw [allFilesOne.eq_2] at hk
    rcases List.mem_map.mp hk with ⟨k2, _, hk2⟩
    rw [← hk2, data_append, data_append, show "/".data = ['/'] from by decide]
    rw [show n.data ++ ['/'] ++ k2.data = n.data ++ '/' :: k2.data from by simp]
    simp [preB_free_vs_sep lc n.data k2.data hfree, hbn]

/-- Keys below an entry named other than the pattern's first segment all
fail a separator-bearing pattern. -/
theorem allFilesOne_mismatch (s n : String) (u : List Char) (node : FSNode)
    (hs : '/' ∉ s.data) (hn : '/' ∉ n.data) (hns : n ≠ s) :
    (allFilesOne n node).filter (fun k => preB (s.data ++ '/' :: u) k.data) = [] := by
  rw [List.filter_eq_nil]
  intro k hk
  cases node with
  | file c =>
    rw [allFilesOne.eq_1] at hk
    rw [List.mem_singleton.mp hk]
    simp [preB_sep_free s.data u n.data hn]
  | dir es =>
    rw [allFilesOne.eq_2] at hk
    rcases List.mem_map.mp hk with ⟨k2, _, hk2⟩
    rw [← hk2, data_append, data_append, show "/".data = ['/'] from by decide]
    rw [show n.data ++ ['/'] ++ k2.data = n.data ++ '/' :: k2.data from by simp]
    rw [preB_seg s.data n.data u k2.data hs hn]
    have : ¬ s.data = n.data := fun h => hns (string_ext h.symm)
    simp [this]

/-- No key of a listing avoiding the pattern's first segment matches a
separator-bearing pattern. -/
theorem allFilesEntries_mismatch : ∀ (es : List (String × FSNode)) (s : String)
    (u : List Char), '/' ∉ s.data → (∀ e ∈ es, e.1 ≠ s) →
    (∀ e ∈ es, cleanSegB e.1.data = true) →
    (allFilesEntries es).filter (fun k => preB (s.data ++ '/' :: u) k.data) = [] := by
  intro es
  induction es with
  | nil => intro s u _ _ _; rfl
  | cons e es ih =>
    intro s u hs hne hcl
    cases e with
    | mk n node =>
      rw [allFilesEntries.eq_2, List.filter_append]
      rw [allFilesOne_mismatch s n u node hs
        (by
          have := (cleanSegB_iff.mp (hcl (n, node) (List.mem_cons_self _ _))).2.2.2
          exact this)
        (hne (n, node) (List.mem_cons_self _ _)), List.nil_append]
      exact ih s u hs (fun x hx => hne x (List.mem_cons_of_mem _ hx))
        (fun x hx => hcl x (List.mem_cons_of_mem _ hx))

mutual
/-- A successful lookup in a well-formed tree lands on a well-formed
node. -/
theorem cleanNodeB_lookupNode : ∀ (t : FSNode) (segs : List String) (n' : FSNode),
    cleanNodeB t = true → lookupNode t segs = some n' → cleanNodeB n' = true
  | t, [], n' => by
    intro hc h
    rw [lookupNode.eq_1] at h
    cases h
    exact hc
  | .file c, s :: rest, n' => by
    intro _ h
    rw [lookupNode.eq_2] at h
    cases h
  | .dir es, s :: rest, n' => by
    intro hc h
    rw [lookupNode.eq_3] at h
    exact cleanEntriesB_lookupEntries es s rest n'
      (by rw [cleanNodeB.eq_2] at hc; exact hc) h
/-- Entries version of `cleanNodeB_lookupNode`. -/
theorem cleanEntriesB_lookupEntries : ∀ (es : List (String × FSNode)) (s : String)
    (rest : List String) (n' : FSNode),
    cleanEntriesB es = true → lookupEntries es s rest = some n' → cleanNodeB n' = true
  | [], s, rest, n' => by
    intro _ h
    rw [lookupEntries.eq_1] at h
    cases h
  | (nm, node) :: es, s, rest, n' => by
    intro hc h
    obtain ⟨_, hnode, _, hes⟩ := cleanEntriesB_cons hc
    rw [lookupEntries.eq_2] at h
    by_cases hns : nm = s
    · rw [if_pos hns] at h
      exact cleanNodeB_lookupNode node rest n' hnode h
    · rw [if_neg hns] at h
      exact cleanEntriesB_lookupEntries es s rest n' hes h
end

theorem preB_nil (x : List Char) : preB [] x = true := by
  cases x with
  | nil => rfl
  | cons c cs => rfl

theorem map_congr_mem {α β : Type} : ∀ (l : List α) (f g : α → β),
    (∀ a ∈ l, f a = g a) → l.map f = l.map g := by
  intro l f g h
  induction l with
  | nil => rfl
  | cons a l ih =>
    rw [List.map_cons, List.map_cons, h a (List.mem_cons_self _ _),
      ih (fun x hx => h x (List.mem_cons_of_mem _ hx))]

theorem withDirS_data_relPat : ∀ (W : List String) (k : String),
    (withDirS W k).data = relPat W k.data := by
  intro W
  induction W with
  | nil => intro k; rfl
  | cons s W ih =>
    intro k
    rw [withDirS, relPat, data_append, data_append, show "/".data = ['/'] from by decide,
      ih k]
    simp

theorem interSlash_append_relPat : ∀ (W : List String) (A : List (List Char))
    (lc : List Char), A ≠ [] →
    interSlash (A ++ strSegs W) ++ '/' :: lc = interSlash A ++ '/' :: relPat W lc := by
  intro W
  induction W with
  | nil => intro A lc _; simp [strSegs, relPat]
  | cons s W ih =>
    intro A lc hA
    rw [show strSegs (s :: W) = s.data :: strSegs W from rfl,
      show A ++ s.data :: strSegs W = (A ++ [s.data]) ++ strSegs W from by simp,
      ih (A ++ [s.data]) lc (by simp),
      interSlash_append A [s.data] hA (by simp), interSlash_single, relPat]
    simp

/-- `join` of the walk's directory path (either form) with an entry name. -/
theorem joinTwo_dir_either (M : List (List Char)) (pd n : String) (hM : M ≠ [])
    (hcM : ∀ s ∈ M, cleanSegB s = true)
    (hpd : pd.data = '/' :: interSlash M ∨ pd.data = ('/' :: interSlash M) ++ ['/'])
    (hn : cleanSegB n.data = true) :
    (joinTwo pd n).data = ('/' :: interSlash M) ++ '/' :: n.data := by
  have h0 : (joinTwo pd n).data = '/' :: interSlash (M ++ [n.data]) := by
    rcases hpd with hpd | hpd
    · exact joinTwo_dir M [] pd n hM hcM (Or.inl rfl) (by rw [hpd]; simp) hn
    · exact joinTwo_dir M ['/'] pd n hM hcM (Or.inr rfl) (by rw [hpd]; simp) hn
  rw [h0, interSlash_append M [n.data] hM (by simp), interSlash_single]
  simp

mutual
/-- The `flatListAbsolute` directory walk over a listing at segment path
`W` under the root: it yields exactly the keys below `W` extending the
pattern remainder `lc`, prefixed back with `W` (`relative` strips the
root). -/
theorem walkEntries : ∀ (root : String) (R : List (List Char)) (W : List String)
    (lc : List Char) (pd p : String) (es : List (String × FSNode)),
    root.data = '/' :: interSlash R → R ≠ [] → (∀ s ∈ R, cleanSegB s = true) →
    (∀ s ∈ W, cleanSegB s.data = true) → cleanEntriesB es = true → '/' ∉ lc →
    (pd.data = '/' :: interSlash (R ++ strSegs W)
      ∨ pd.data = ('/' :: interSlash (R ++ strSegs W)) ++ ['/']) →
    p.data = ('/' :: interSlash (R ++ strSegs W)) ++ '/' :: lc →
    flatListEntries root pd p es
      = ((allFilesEntries es).filter (fun k => preB lc k.data)).map (withDirS W)
  | root, R, W, lc, pd, p, [] => by
    intro _ _ _ _ _ _ _ _
    rw [flatListEntries.eq_1, allFilesEntries.eq_1]
    rfl
  | root, R, W, lc, pd, p, (n, node) :: rest => by
    intro hroot hR hcR hcW hces hfree hpd hp
    obtain ⟨hn, hnode, _, hrest⟩ := cleanEntriesB_cons hces
    have hMne : R ++ strSegs W ≠ [] := by simp [hR]
    have hcM : ∀ s ∈ R ++ strSegs W, cleanSegB s = true := by
      intro s hs
      rcases List.mem_append.mp hs with h | h
      · exact hcR s h
      · rcases List.mem_map.mp h with ⟨w, hw, hws⟩
        rw [← hws]
        exact hcW w hw
    have hjoin : (joinTwo pd n).data
        = ('/' :: interSlash (R ++ strSegs W)) ++ '/' :: n.data :=
      joinTwo_dir_either (R ++ strSegs W) pd n hMne hcM hpd hn
    have hcond : preB p.data (joinTwo pd n).data = preB lc n.data := by
      rw [hp, hjoin,
        show ('/' :: interSlash (R ++ strSegs W)) ++ '/' :: lc
          = (('/' :: interSlash (R ++ strSegs W)) ++ ['/']) ++ lc from by simp,
        show ('/' :: interSlash (R ++ strSegs W)) ++ '/' :: n.data
          = (('/' :: interSlash (R ++ strSegs W)) ++ ['/']) ++ n.data from by simp,
        preB_append_cancel]
    rw [flatListEntries.eq_2, allFilesEntries.eq_2, List.filter_append, List.map_append]
    congr 1
    · by_cases hbn : preB lc n.data = true
      · rw [hcond, if_pos hbn]
        exact walkOne root R W lc pd n node hroot hR hcR hcW hn hnode hfree hpd hbn
      · have hbn' : preB lc n.data = false := by simpa using hbn
        rw [hcond, hbn', if_neg (by simp), allFilesOne_filter_none n node lc hfree hbn']
        rfl
    · exact walkEntries root R W lc pd p rest hroot hR hcR hcW hrest hfree hpd hp
/-- One matched entry of the walk: a file yields its stripped path, a
directory contributes its whole subtree. -/
theorem walkOne : ∀ (root : String) (R : List (List Char)) (W : List String)
    (lc : List Char) (pd n : String) (node : FSNode),
    root.data = '/' :: interSlash R → R ≠ [] → (∀ s ∈ R, cleanSegB s = true) →
    (∀ s ∈ W, cleanSegB s.data = true) → cleanSegB n.data = true →
    cleanNodeB node = true → '/' ∉ lc →
    (pd.data = '/' :: interSlash (R ++ strSegs W)
      ∨ pd.data = ('/' :: interSlash (R ++ strSegs W)) ++ ['/']) →
    preB lc n.data = true →
    flatListOne root (joinTwo pd n) node
      = ((allFilesOne n node).filter (fun k => preB lc k.data)).map (withDirS W)
  | root, R, W, lc, pd, n, .file c => by
    intro hroot hR hcR hcW hn hnode hfree hpd hbn
    have hMne : R ++ strSegs W ≠ [] := by simp [hR]
    have hcM : ∀ s ∈ R ++ strSegs W, cleanSegB s = true := by
      intro s hs
      rcases List.mem_append.mp hs with h | h
      · exact hcR s h
      · rcases List.mem_map.mp h with ⟨w, hw, hws⟩
        rw [← hws]
        exact hcW w hw
    have hjoin : (joinTwo pd n).data
        = ('/' :: interSlash (R ++ strSegs W)) ++ '/' :: n.data :=
      joinTwo_dir_either (R ++ strSegs W) pd n hMne hcM hpd hn
    have hx : (joinTwo pd n).data = root.data ++ '/' :: relPat W n.data := by
      rw [hjoin,
        show ('/' :: interSlash (R ++ strSegs W)) ++ '/' :: n.data
          = '/' :: (interSlash (R ++ strSegs W) ++ '/' :: n.data) from by simp,
        interSlash_append_relPat W R n.data hR, hroot]
      simp
    have hrel := relativeUnder_of_shape root (joinTwo pd n) (relPat W n.data) hx
    rw [flatListOne.eq_1, allFilesOne.eq_1,
      show ([n].filter (fun k => preB lc k.data)) = [n] from by simp [hbn], hrel,
      show (⟨relPat W n.data⟩ : String) = withDirS W n from
        string_ext (withDirS_data_relPat W n).symm]
    rfl
  | root, R, W, lc, pd, n, .dir es' => by
    intro hroot hR hcR hcW hn hnode hfree hpd hbn
    have hMne : R ++ strSegs W ≠ [] := by simp [hR]
    have hcM : ∀ s ∈ R ++ strSegs W, cleanSegB s = true := by
      intro s hs
      rcases List.mem_append.mp hs with h | h
      · exact hcR s h
      · rcases List.mem_map.mp h with ⟨w, hw, hws⟩
        rw [← hws]
        exact hcW w hw
    have hjoin : (joinTwo pd n).data
        = ('/' :: interSlash (R ++ strSegs W)) ++ '/' :: n.data :=
      joinTwo_dir_either (R ++ strSegs W) pd n hMne hcM hpd hn
    have hsegs2 : '/' :: interSlash (R ++ strSegs (W ++ [n]))
        = ('/' :: interSlash (R ++ strSegs W)) ++ '/' :: n.data := by
      rw [show strSegs (W ++ [n]) = strSegs W ++ [n.data] from by
          rw [strSegs, strSegs, List.map_append]; rfl,
        ← List.append_assoc,
        interSlash_append (R ++ strSegs W) [n.data] hMne (by simp), interSlash_single]
      simp
    have hpd2 : (joinTwo pd n ++ "/").data
        = ('/' :: interSlash (R ++ strSegs (W ++ [n]))) ++ ['/'] := by
      rw [data_append, hjoin, show "/".data = ['/'] from by decide, hsegs2]
    have hces' : cleanEntriesB es' = true := by
      rw [cleanNodeB.eq_2] at hnode
      exact hnode
    have hcW2 : ∀ s ∈ W ++ [n], cleanSegB s.data = true := by
      intro s hs
      rcases List.mem_append.mp hs with h | h
      · exact hcW s h
      · rw [List.mem_singleton.mp h]
        exact hn
    rw [flatListOne.eq_2]
    rw [walkEntries root R (W ++ [n]) [] (joinTwo pd n ++ "/") (joinTwo pd n ++ "/") es'
      hroot hR hcR hcW2 hces' (by simp) (Or.inr hpd2) hpd2]
    rw [show (allFilesEntries es').filter (fun k => preB [] k.data)
        = allFilesEntries es' from List.filter_eq_self.mpr (fun a _ => by rw [preB_nil])]
    rw [allFilesOne.eq_2]
    rw [show ((allFilesEntries es').map (fun k => n ++ "/" ++ k)).filter
          (fun k => preB lc k.data)
        = (allFilesEntries es').map (fun k => n ++ "/" ++ k) from
      List.filter_eq_self.mpr (by
        intro a ha
        rcases List.mem_map.mp ha with ⟨k2, _, hk2⟩
        rw [← hk2, data_append, data_append, show "/".data = ['/'] from by decide,
          show n.data ++ ['/'] ++ k2.data = n.data ++ '/' :: k2.data from by simp,
          preB_free_vs_sep lc n.data k2.data hfree]
        exact hbn)]
    rw [List.map_map]
    exact map_congr_mem _ _ _ (fun k _ => withDirS_append_single W n k)
end

theorem cleanEntriesB_names : ∀ (es : List (String × FSNode)),
    cleanEntriesB es = true → ∀ e ∈ es, cleanSegB e.1.data = true := by
  intro es
  induction es with
  | nil => intro _ e he; cases he
  | cons e0 es ih =>
    intro hc e he
    cases e0 with
    | mk n node =>
      obtain ⟨hcn, _, _, hces⟩ := cleanEntriesB_cons hc
      rcases List.mem_cons.mp he with h | h
      · rw [h]
        exact hcn
      · exact ih hces e h

/-- Filtering the whole enumeration by a rooted pattern localizes to the
subtree the pattern's directory segments resolve to: the keys of that
subtree matching the remaining separator-free piece, prefixed back with
the directory segments (nothing, when the path resolves to a file or to
nothing). -/
theorem lookup_filter_split (lc : List Char) (hfree : '/' ∉ lc) :
    ∀ (S' : List String), (∀ s ∈ S', cleanSegB s.data = true) →
    ∀ (es : List (String × FSNode)), cleanEntriesB es = true →
    (allFilesEntries es).filter (fun k => preB (relPat S' lc) k.data)
      = (match lookupNode (.dir es) S' with
         | some (.dir es') =>
           ((allFilesEntries es').filter (fun k => preB lc k.data)).map (withDirS S')
         | _ => []) := by
  intro S'
  induction S' with
  | nil =>
    intro _ es hces
    rw [lookupNode.eq_1]
    show (allFilesEntries es).filter (fun k => preB lc k.data)
      = ((allFilesEntries es).filter (fun k => preB lc k.data)).map (withDirS [])
    rw [map_congr_mem ((allFilesEntries es).filter (fun k => preB lc k.data))
      (withDirS []) (fun k => k) (fun a _ => rfl), List.map_id']
  | cons s W ih =>
    intro hcS es hces
    have hs : cleanSegB s.data = true := hcS s (List.mem_cons_self _ _)
    have hsfree : '/' ∉ s.data := (cleanSegB_iff.mp hs).2.2.2
    have hcW : ∀ x ∈ W, cleanSegB x.data = true :=
      fun x hx => hcS x (List.mem_cons_of_mem _ hx)
    rw [lookupNode.eq_3]
    simp only [show relPat (s :: W) lc = s.data ++ '/' :: relPat W lc from rfl]
    revert hces
    induction es with
    | nil =>
      intro _
      rw [allFilesEntries.eq_1, lookupEntries.eq_1]
      rfl
    | cons e es2 ihes =>
      intro hces
      obtain ⟨n, node⟩ := e
      obtain ⟨hcn, hcnode, hdup, hces2⟩ := cleanEntriesB_cons hces
      have hnfree : '/' ∉ n.data := (cleanSegB_iff.mp hcn).2.2.2
      rw [allFilesEntries.eq_2, List.filter_append, lookupEntries.eq_2]
      by_cases hns : n = s
      · rw [if_pos hns]
        have h2 : (allFilesEntries es2).filter
            (fun k => preB (s.data ++ '/' :: relPat W lc) k.data) = [] := by
          apply allFilesEntries_mismatch es2 s (relPat W lc) hsfree
          · intro e2 he2 heq
            have : es2.any (fun e3 => decide (e3.1 = n)) = true :=
              List.any_eq_true.mpr ⟨e2, he2, by simp [heq, hns]⟩
            rw [this] at hdup
            cases hdup
          · exact cleanEntriesB_names es2 hces2
        rw [h2, List.append_nil]
        cases node with
        | file c =>
          rw [allFilesOne.eq_1,
            show ([n].filter (fun k => preB (s.data ++ '/' :: relPat W lc) k.data))
              = [] from by simp [preB_sep_free s.data (relPat W lc) n.data hnfree]]
          cases W with
          | nil => rw [lookupNode.eq_1]
          | cons w ws => rw [lookupNode.eq_2]
        | dir es' =>
          rw [allFilesOne.eq_2, List.filter_map]
          rw [List.filter_congr (l := allFilesEntries es')
            (q := fun k2 => preB (relPat W lc) k2.data) (by
              intro k2 _
              show preB (s.data ++ '/' :: relPat W lc) ((n ++ "/" ++ k2).data)
                = preB (relPat W lc) k2.data
              rw [data_append, data_append, show "/".data = ['/'] from by decide,
                show n.data ++ ['/'] ++ k2.data = n.data ++ '/' :: k2.data from by simp,
                preB_seg s.data n.data (relPat W lc) k2.data hsfree hnfree,
                show s.data = n.data from by rw [hns]]
              simp)]
          rw [ih hcW es' (by rw [cleanNodeB.eq_2] at hcnode; exact hcnode)]
          cases hnk : lookupNode (.dir es') W with
          | none => rfl
          | some nd =>
            cases nd with
            | file c2 => rfl
            | dir es3 =>
              show ((((allFilesEntries es3).filter (fun k => preB lc k.data)).map
                (withDirS W)).map (fun k => n ++ "/" ++ k))
                = ((allFilesEntries es3).filter (fun k => preB lc k.data)).map
                  (withDirS (s :: W))
              rw [List.map_map]
              apply map_congr_mem
              intro k _
              show n ++ "/" ++ withDirS W k = withDirS (s :: W) k
              rw [hns, withDirS]
      · rw [if_neg hns,
          allFilesOne_mismatch s n (relPat W lc) node hsfree hnfree hns, List.nil_append]
        exact ihes hces2

theorem localHandleError_enoent (q x : String) :
    localHandleError (enoentErr q) x = .fileNotFound (enoentErr q) q := by
  simp [localHandleError, enoentErr]

theorem localHandleError_enotdir (q x : String) :
    localHandleError (enotdirErr q) x = .unknown (enotdirErr q) "ENOTDIR" q := by
  simp [localHandleError, enotdirErr, jsCodeString]

theorem localFlatList_eq_err (fs : FSNode) (root loc : String) (e : NativeErr)
    (h : readdirAt fs root (localPd root loc) = .error e) :
    localFlatList fs root loc
      = (match localHandleError e (e.path.getD "") with
         | .fileNotFound c p => .ok []
         | e' => .error e') := by
  simp only [localPd] at h
  simp only [localFlatList]
  rw [h]

theorem localFlatList_eq_ok (fs : FSNode) (root loc : String)
    (es2 : List (String × FSNode))
    (h : readdirAt fs root (localPd root loc) = .ok es2) :
    localFlatList fs root loc
      = .ok (flatListEntries root (localPd root loc) (fullPath root loc) es2) := by
  simp only [localPd] at h ⊢
  simp only [localFlatList]
  rw [h]

theorem localFlatList_eq_enoent (fs : FSNode) (root loc : String) (q : String)
    (h : readdirAt fs root (localPd root loc) = .error (enoentErr q)) :
    localFlatList fs root loc = .ok [] := by
  rw [localFlatList_eq_err fs root loc _ h, localHandleError_enoent]

theorem localFlatList_eq_enotdir (fs : FSNode) (root loc : String) (q : String)
    (h : readdirAt fs root (localPd root loc) = .error (enotdirErr q)) :
    localFlatList fs root loc = .error (.unknown (enotdirErr q) "ENOTDIR" q) := by
  rw [localFlatList_eq_err fs root loc _ h, localHandleError_enotdir]

/-- Common assembly: once the prefix directory's segment path `W` and
pattern remainder `lc` are identified, a successful `flatList` returns
the filtered enumeration. -/
theorem localFlatList_assemble (es : List (String × FSNode)) (root loc : String)
    (out : List String) (R : List (List Char)) (W : List String) (lc : List Char)
    (hces : cleanEntriesB es = true)
    (hrootd : root.data = '/' :: interSlash R) (hR : R ≠ [])
    (hcR : ∀ s ∈ R, cleanSegB s = true)
    (hcW : ∀ s ∈ W, cleanSegB s.data = true) (hfree : '/' ∉ lc)
    (hstrip : stripRoot root (localPd root loc) = W)
    (hpd : (localPd root loc).data = '/' :: interSlash (R ++ strSegs W)
      ∨ (localPd root loc).data = ('/' :: interSlash (R ++ strSegs W)) ++ ['/'])
    (hpw : (fullPath root loc).data = ('/' :: interSlash (R ++ strSegs W)) ++ '/' :: lc)
    (hout : localFlatList (.dir es) root loc = .ok out) :
    out = (allFilesEntries es).filter (fun k => preB (relPat W lc) k.data) := by
  cases hlk : lookupNode (.dir es) W with
  | none =>
    have hrd : readdirAt (.dir es) root (localPd root loc)
        = .error (enoentErr (localPd root loc)) := by
      rw [readdirAt, hstrip, hlk]
    rw [localFlatList_eq_enoent _ root loc _ hrd] at hout
    have ho : out = [] := by simpa using hout.symm
    have hb := lookup_filter_split lc hfree W hcW es hces
    rw [hlk] at hb
    rw [ho, hb]
  | some nd =>
    cases nd with
    | file c =>
      have hrd : readdirAt (.dir es) root (localPd root loc)
          = .error (enotdirErr (localPd root loc)) := by
        rw [readdirAt, hstrip, hlk]
      rw [localFlatList_eq_enotdir _ root loc _ hrd] at hout
      exact absurd hout (by simp)
    | dir es' =>
      have hrd : readdirAt (.dir es) root (localPd root loc) = .ok es' := by
        rw [readdirAt, hstrip, hlk]
      rw [localFlatList_eq_ok _ root loc es' hrd] at hout
      have hces' : cleanEntriesB es' = true := by
        have h1 : cleanNodeB (.dir es') = true :=
          cleanNodeB_lookupNode (.dir es) W (.dir es')
            (by rw [cleanNodeB.eq_2]; exact hces) hlk
        rw [cleanNodeB.eq_2] at h1
        exact h1
      have hwalk := walkEntries root R W lc (localPd root loc) (fullPath root loc) es'
        hrootd hR hcR hcW hces' hfree hpd hpw
      have ho : flatListEntries root (localPd root loc) (fullPath root loc) es' = out := by
        simpa using hout
      have hb := lookup_filter_split lc hfree W hcW es hces
      rw [hlk] at hb
      rw [← ho, hwalk, hb]


/-- A successful local `flatList` returns exactly the stored keys (paths
relative to the root) extending the resolved prefix. -/
theorem localFlatList_filter (es : List (String × FSNode)) (root loc : String)
    (out : List String) (hces : cleanEntriesB es = true) (hroot : CleanAbsRoot root)
    (hout : localFlatList (.dir es) root loc = .ok out) :
    out = (allFilesEntries es).filter (fun k => preB (relOfLoc root loc) k.data) := by
  obtain ⟨R, hrootd, hR, hcR⟩ := hroot
  obtain ⟨L, t, hp, hcL, ht, hLt⟩ :=
    fullPath_shape root loc ⟨R, hrootd, hR, hcR⟩
  have hrel : relOfLoc root loc = interSlash L ++ t := by
    rw [relOfLoc, hp,
      show root.data ++ '/' :: (interSlash L ++ t)
        = (root.data ++ ['/']) ++ (interSlash L ++ t) from by simp,
      show root.data.length + 1 = (root.data ++ ['/']).length from by simp, List.drop_left]
  by_cases hsl : (fullPath root loc).data.getLast? = some '/'
  · -- the prefix ends in a separator: the prefix directory is the prefix itself
    have hpd_eq : localPd root loc = fullPath root loc := by
      simp only [localPd]
      rw [if_pos hsl]
    have htA : (L ≠ [] ∧ t = ['/']) ∨ (L = [] ∧ t = []) := by
      rcases ht with ht0 | ht0
      · refine Or.inr ⟨?_, ht0⟩
        by_contra hL
        have hI := interSlash_ne_nil hL hcL
        apply absurd hsl
        rw [hp, ht0, List.append_nil, getLast?_append_cons]
        cases hIc : interSlash L with
        | nil => exact absurd hIc hI
        | cons y ys =>
          rw [List.getLast?_cons_cons]
          intro hcontr
          exact interSlash_getLast_ne_sep L hL hcL '/' (by rw [hIc]; exact hcontr) rfl
      · refine Or.inl ⟨fun hL0 => ?_, ht0⟩
        have h2 := (hLt hL0).symm.trans ht0
        simp at h2
    have hshapeA : (fullPath root loc).data = ('/' :: interSlash (R ++ L)) ++ ['/'] := by
      rcases htA with ⟨hL, ht'⟩ | ⟨hL0, ht'⟩
      · rw [hp, ht', hrootd, interSlash_append R L hR hL]
        simp
      · subst hL0
        rw [hp, ht', hrootd]
        simp [interSlash]
    have hpatA : relPat (L.map (fun x => (⟨x⟩ : String))) [] = interSlash L ++ t := by
      rcases htA with ⟨hL, ht'⟩ | ⟨hL0, ht'⟩
      · subst ht'
        rw [relPat_eq _ [] (by intro h; exact hL (by simpa using h)), strSegs_map]
      · subst hL0
        subst ht'
        rfl
    have hstripA : stripRoot root (localPd root loc)
        = L.map (fun x => (⟨x⟩ : String)) := by
      rw [hpd_eq]
      exact stripRoot_of_shape root (fullPath root loc) L t hp hcL ht hLt
    have hcWA : ∀ s ∈ L.map (fun x => (⟨x⟩ : String)), cleanSegB s.data = true := by
      intro s hs
      rcases List.mem_map.mp hs with ⟨x, hx, hxs⟩
      rw [← hxs]
      exact hcL x hx
    have hres := localFlatList_assemble es root loc out R
      (L.map (fun x => (⟨x⟩ : String))) [] hces hrootd hR hcR hcWA (by simp)
      hstripA
      (Or.inr (by rw [hpd_eq, strSegs_map]; exact hshapeA))
      (by rw [strSegs_map]; exact hshapeA)
      hout
    rw [hres]
    simp only [hrel, ← hpatA]
  · -- no trailing separator: the prefix directory is `dirname` of the prefix
    have hpd_eq : localPd root loc = dirnameStr (fullPath root loc) := by
      simp only [localPd]
      rw [if_neg hsl]
    have ht0 : t = [] := by
      rcases ht with h | h
      · exact h
      · exfalso
        apply hsl
        rw [hp, h, getLast?_append_cons,
          show '/' :: (interSlash L ++ ['/']) = ('/' :: interSlash L) ++ ['/'] from by simp,
          List.getLast?_concat]
    have hLne : L ≠ [] := by
      intro h0
      apply hsl
      rw [hp, ht0, h0,
        show root.data ++ '/' :: (interSlash ([] : List (List Char)) ++ [])
          = root.data ++ ['/'] from rfl, List.getLast?_concat]
    obtain ⟨Ls, lcSeg, hLsplit⟩ : ∃ Ls lcSeg, L = Ls ++ [lcSeg] := by
      cases hrev : L.reverse with
      | nil =>
        exfalso
        apply hLne
        have := congrArg List.reverse hrev
        simpa using this
      | cons x xs =>
        refine ⟨xs.reverse, x, ?_⟩
        have := congrArg List.reverse hrev
        simpa using this
    subst hLsplit
    subst ht0
    have hclc : cleanSegB lcSeg = true := hcL lcSeg (by simp)
    obtain ⟨hlcne, -, -, hlcfree⟩ := cleanSegB_iff.mp hclc
    have hcLs : ∀ s ∈ Ls, cleanSegB s = true := fun s hs => hcL s (by simp [hs])
    have hcRLs : ∀ s ∈ R ++ Ls, cleanSegB s = true := by
      intro s hs
      rcases List.mem_append.mp hs with h | h
      · exact hcR s h
      · exact hcLs s h
    have hpB : (fullPath root loc).data
        = ('/' :: interSlash (R ++ Ls)) ++ '/' :: lcSeg := by
      rw [hp, List.append_nil, hrootd]
      by_cases hLs : Ls = []
      · subst hLs
        rw [show interSlash ([] ++ [lcSeg]) = lcSeg from interSlash_single lcSeg]
        simp
      · rw [interSlash_append Ls [lcSeg] hLs (by simp), interSlash_single,
          interSlash_append R Ls hR hLs]
        simp
    have hpdB : (localPd root loc).data = '/' :: interSlash (R ++ Ls) := by
      rw [hpd_eq]
      show dirnameChars (fullPath root loc).data = '/' :: interSlash (R ++ Ls)
      rw [hpB]
      exact dirnameChars_concat (R ++ Ls) lcSeg (by simp [hR]) hcRLs hlcne hlcfree
    have hstripB : stripRoot root (localPd root loc)
        = Ls.map (fun x => (⟨x⟩ : String)) := by
      by_cases hLs : Ls = []
      · subst hLs
        have hpr : localPd root loc = root := string_ext (by rw [hpdB, hrootd]; simp)
        rw [hpr, stripRoot, if_pos rfl]
        rfl
      · exact stripRoot_of_shape root (localPd root loc) Ls []
          (by rw [hpdB, hrootd, interSlash_append R Ls hR hLs]; simp)
          hcLs (Or.inl rfl) (fun h => absurd h hLs)
    have hpatB : relPat (Ls.map (fun x => (⟨x⟩ : String))) lcSeg
        = interSlash (Ls ++ [lcSeg]) ++ [] := by
      rw [List.append_nil]
      by_cases hLs : Ls = []
      · subst hLs
        rw [show interSlash ([] ++ [lcSeg]) = lcSeg from interSlash_single lcSeg]
        rfl
      · rw [relPat_eq _ lcSeg (by intro h; exact hLs (by simpa using h)), strSegs_map,
          interSlash_append Ls [lcSeg] hLs (by simp), interSlash_single]
    have hcWB : ∀ s ∈ Ls.map (fun x => (⟨x⟩ : String)), cleanSegB s.data = true := by
      intro s hs
      rcases List.mem_map.mp hs with ⟨x, hx, hxs⟩
      rw [← hxs]
      exact hcLs x hx
    have hres := localFlatList_assemble es root loc out R
      (Ls.map (fun x => (⟨x⟩ : String))) lcSeg hces hrootd hR hcR hcWB hlcfree
      hstripB
      (Or.inl (by rw [strSegs_map]; exact hpdB))
      (by rw [strSegs_map]; exact hpB)
      hout
    rw [hres]
    simp only [hrel, ← hpatB]

/-- C7 (corrected): the cloud drivers' `flatList(prefix)` yields exactly
the stored keys extending the prefix — S3 and GCS via a terminating
marker loop over the backend's sorted enumeration (S3 requesting at most
1000 keys per round trip), Azure via the SDK's flat listing — and the
local driver's `flatList`, whenever it succeeds, yields exactly the
stored files whose resolved path extends the resolved prefix, relative to
the root. (The local driver is not total: see the counterexample — a file
obstructing the prefix's directory path makes it throw instead of
yielding the empty matching set.) -/
theorem c7_flatlist_contract :
    (∀ (st : Store) (pfx : String), List.Pairwise (· < ·) (keysMatching st pfx) →
      s3FlatList st pfx = keysMatching st pfx)
    ∧ (∀ (st : Store) (pfx : String) (marker : Option String),
      ((listPage st pfx marker 1000).1).length ≤ 1000)
    ∧ (∀ (ps : Nat) (st : Store) (pfx : String), 0 < ps →
      List.Pairwise (· < ·) (keysMatching st pfx) →
      gcsFlatList ps st pfx = keysMatching st pfx)
    ∧ (∀ (st : Store) (pfx : String), azureFlatList st pfx = keysMatching st pfx)
    ∧ (∀ (es : List (String × FSNode)) (root loc : String) (out : List String),
      cleanEntriesB es = true → CleanAbsRoot root →
      localFlatList (.dir es) root loc = .ok out →
      out = (allFilesEntries es).filter (fun k => preB (relOfLoc root loc) k.data)) := by
  refine ⟨?_, ?_, ?_, ?_, ?_⟩
  · intro st pfx hsorted
    have hfil : (keysMatching st pfx).filter (afterMarker none) = keysMatching st pfx :=
      List.filter_eq_self.mpr (fun a _ => rfl)
    rw [s3FlatList,
      pagedLoop_eq st pfx 1000 (by norm_num) hsorted
        ((keysMatching st pfx).filter (afterMarker none)).length none (le_refl _), hfil]
  · intro st pfx marker
    show (((keysMatching st pfx).filter (afterMarker marker)).take 1000).length ≤ 1000
    exact List.length_take_le _ _
  · intro ps st pfx hps hsorted
    have hfil : (keysMatching st pfx).filter (afterMarker none) = keysMatching st pfx :=
      List.filter_eq_self.mpr (fun a _ => rfl)
    rw [gcsFlatList,
      pagedLoop_eq st pfx ps hps hsorted
        ((keysMatching st pfx).filter (afterMarker none)).length none (le_refl _), hfil]
  · intro st pfx
    rfl
  · exact localFlatList_filter

/-- C7 counterexample: with a file `a` stored under the root, no stored
key extends the prefix `a/x` (the matching set is empty), yet the local
driver's `flatList("a/x")` throws an `UnknownException` (`ENOTDIR` from
enumerating the file `a` as the prefix directory) instead of yielding an
empty sequence. -/
theorem c7_flatlist_counterexample :
    (allFilesEntries [("a", FSNode.file "1")]).filter
        (fun k => preB (relOfLoc "/r" "a/x") k.data) = []
    ∧ localFlatList (.dir [("a", FSNode.file "1")]) "/r" "a/x"
        = .error (.unknown (enotdirErr "/r/a") "ENOTDIR" "/r/a") :=
  ⟨rfl, rfl⟩

theorem c7_flatlist_contract_witness :
    (List.Pairwise (· < ·)
        (keysMatching [("a/1", "x"), ("a/2", "y"), ("b", "z")] "a/")
      ∧ s3FlatList [("a/1", "x"), ("a/2", "y"), ("b", "z")] "a/"
        = keysMatching [("a/1", "x"), ("a/2", "y"), ("b", "z")] "a/")
    ∧ (0 < 2
      ∧ gcsFlatList 2 [("a/1", "x"), ("a/2", "y"), ("b", "z")] "a/"
        = keysMatching [("a/1", "x"), ("a/2", "y"), ("b", "z")] "a/")
    ∧ (cleanEntriesB [("a", FSNode.dir [("x", FSNode.file "1")]), ("b", FSNode.file "2")]
        = true
      ∧ CleanAbsRoot "/r"
      ∧ localFlatList
          (.dir [("a", FSNode.dir [("x", FSNode.file "1")]), ("b", FSNode.file "2")])
          "/r" "a" = .ok ["a/x"]
      ∧ ["a/x"]
        = (allFilesEntries
            [("a", FSNode.dir [("x", FSNode.file "1")]), ("b", FSNode.file "2")]).filter
            (fun k => preB (relOfLoc "/r" "a") k.data)) :=
  by
  have hsorted : List.Pairwise (· < ·)
      (keysMatching [("a/1", "x"), ("a/2", "y"), ("b", "z")] "a/") := by
    rw [show keysMatching [("a/1", "x"), ("a/2", "y"), ("b", "z")] "a/"
      = ["a/1", "a/2"] from rfl]
    refine List.Pairwise.cons ?_ (List.Pairwise.cons ?_ List.Pairwise.nil)
    · intro b hb
      rw [List.mem_singleton.mp hb]
      exact String.lt_iff_toList_lt.mpr (by decide)
    · intro b hb
      exact absurd hb (List.not_mem_nil b)
  exact ⟨⟨hsorted, c7_flatlist_contract.1 _ _ hsorted⟩,
    ⟨by decide, c7_flatlist_contract.2.2.1 2 _ _ (by decide) hsorted⟩,
    rfl,
    ⟨[['r']], by decide, by decide, by decide⟩,
    rfl,
    c7_flatlist_contract.2.2.2.2 _ "/r" "a" ["a/x"] rfl
      ⟨[['r']], by decide, by decide, by decide⟩ rfl⟩

/-- C10: for the local driver, `flatList` on a prefix whose containing
directory does not exist yields the empty sequence rather than throwing
(the `ENOENT` from `readdir` translates to `FileNotFound` and is
swallowed), while a non-`FileNotFound` enumeration error — such as the
`ENOTDIR` raised when a file sits on the directory path — is translated
and thrown. -/
theorem c10_flatlist_dir_errors (fs : FSNode) (root loc : String) :
    (lookupNode fs (stripRoot root (localPd root loc)) = none →
      localFlatList fs root loc = .ok [])
    ∧ (∀ c, lookupNode fs (stripRoot root (localPd root loc)) = some (.file c) →
      localFlatList fs root loc
        = .error (.unknown (enotdirErr (localPd root loc)) "ENOTDIR"
            (localPd root loc))) := by
  constructor
  · intro h
    apply localFlatList_eq_enoent fs root loc (localPd root loc)
    rw [readdirAt, h]
  · intro c h
    apply localFlatList_eq_enotdir fs root loc (localPd root loc)
    rw [readdirAt, h]

theorem c10_flatlist_dir_errors_witness :
    (lookupNode (.dir [("a", FSNode.file "1")]) (stripRoot "/r" (localPd "/r" "b/x")) = none
      ∧ localFlatList (.dir [("a", FSNode.file "1")]) "/r" "b/x" = .ok [])
    ∧ (lookupNode (.dir [("a", FSNode.file "1")]) (stripRoot "/r" (localPd "/r" "a/x"))
        = some (.file "1")
      ∧ localFlatList (.dir [("a", FSNode.file "1")]) "/r" "a/x"
        = .error (.unknown (enotdirErr (localPd "/r" "a/x")) "ENOTDIR"
            (localPd "/r" "a/x"))) :=
  ⟨⟨rfl, (c10_flatlist_dir_errors (.dir [("a", FSNode.file "1")]) "/r" "b/x").1 rfl⟩,
   ⟨rfl, (c10_flatlist_dir_errors (.dir [("a", FSNode.file "1")]) "/r" "a/x").2 "1" rfl⟩⟩
